import Mathlib

/-!
Shallow embedding of the Notion_charts dashboard component
(`src/src/NotionChart.tsx` and the revisions in `src/unnamed/part_000` …
`part_004`).  The data model and every operation below are translated
directly from the TypeScript source; machine numbers are modelled as `Nat`
(the data points are non-negative integer counts) and JavaScript objects
keyed by strings/numbers are modelled as association lists in insertion
order, matching JS object key enumeration for the keys used here.
-/

namespace NotionCharts

/-- One data point of a chart: a status label and its count
(`ChartDataPoint` in the source). -/
structure ChartDataPoint where
  label : String
  value : Nat
deriving DecidableEq

/-- One donut chart (`ChartItem` in the source): compound title
`"<base>::<name>"`, an optional ordering slot (`null` marks a subtask to be
folded into its predecessor), and its data points. -/
structure ChartItem where
  title : String
  slot : Option Int
  data : List ChartDataPoint
deriving DecidableEq

/-- JS `title.split('::')` at the character level: greedy left-to-right
scan for the two-character separator, returning the (possibly empty)
pieces between its occurrences.  The result is never empty, matching
`String.prototype.split`. -/
def splitColons : List Char → List (List Char)
  | [] => [[]]
  | ':' :: ':' :: rest => [] :: splitColons rest
  | c :: rest =>
    match splitColons rest with
    | [] => [[c]]
    | p :: ps => (c :: p) :: ps

/-- `title.split('::')` as a list of strings. -/
def titleParts (t : String) : List String :=
  (splitColons t.data).map (fun cs => ⟨cs⟩)

/-- `title.split('::')[0]` — the base name of a chart.  `split` always
returns a non-empty array, so `headD` is the JS `[0]` access. -/
def baseOf (c : ChartItem) : String := (titleParts c.title).headD ""

/-- `chart.title.split('::')[1] ?? `Slot ${chart.slot}`` — the displayed
chart name in `SortableBase` (src/src/NotionChart.tsx line 86). -/
def chartName (title : String) (slot : Int) : String :=
  match (titleParts title).get? 1 with
  | some n => n
  | none => "Slot " ++ toString slot

/-- `chart.data.reduce((s, d) => s + (d.value ?? 0), 0)` — the displayed
total of a chart (src/src/NotionChart.tsx line 80). -/
def chartTotal (data : List ChartDataPoint) : Nat :=
  data.foldl (fun s d => s + d.value) 0

/-- Floor of the base-2 logarithm, by structural recursion on a fuel
argument so that the kernel can evaluate it. -/
def log2Fuel : Nat → Nat → Nat
  | 0, _ => 0
  | f + 1, n => if n ≤ 1 then 0 else log2Fuel f (n / 2) + 1

/-- `⌊log₂ n⌋` for `n ≥ 1`. -/
def natLog2 (n : Nat) : Nat := log2Fuel n n

/-- `⌊log₂ (num/den)⌋` for positive `num`, `den`. -/
def floorLog2Q (num den : Nat) : Int :=
  if den ≤ num then (natLog2 (num / den) : Int)
  else
    let j := natLog2 (den / num)
    if den = num * 2 ^ j then -(j : Int) else -((j : Int) + 1)

/-- Round `num/den` to the nearest integer, ties to even — the IEEE 754
default rounding, applied to an integer-scaled significand. -/
def roundNearestEven (num den : Nat) : Nat :=
  let m0 := num / den
  let r := num % den
  if den < 2 * r then m0 + 1
  else if 2 * r < den then m0
  else if m0 % 2 = 0 then m0 else m0 + 1

/-- Round the positive rational `num/den` to IEEE 754 binary64 (53
significand bits, round to nearest, ties to even), returned as a pair
`(m, e)` whose value is `m · 2^e` with `2^52 ≤ m ≤ 2^53`.  Chart counts
and their quotients stay far inside binary64's normal range, so overflow
and subnormals cannot occur and this is exactly the binary64 value of the
quotient. -/
def fl53Pair (num den : Nat) : Nat × Int :=
  let e : Int := floorLog2Q num den - 52
  if 0 ≤ e then (roundNearestEven num (den * 2 ^ e.toNat), e)
  else (roundNearestEven (num * 2 ^ (-e).toNat) den, e)

/-- The exact rational value of a binary64 pair. -/
def flVal (p : Nat × Int) : ℚ := (p.1 : ℚ) * (2 : ℚ) ^ p.2

/-- The binary64 evaluation of `Math.round((value / total) * 100)` for
`total > 0`: JS `/` and `*` are each correctly rounded to binary64
(IEEE 754), `100` and integer counts are exact doubles, and `Math.round`
takes the floor of the exact double value plus one half (ties toward
`+∞`, per the ECMAScript definition — identical to `toFixed(0)` for
non-negative values).  `value = 0` divides and multiplies exactly, giving
`0`. -/
def percentFloat (value total : Nat) : Nat :=
  if value = 0 then 0
  else
    let d1 := fl53Pair value total
    let d2 := if 0 ≤ d1.2 then fl53Pair (d1.1 * 100 * 2 ^ d1.2.toNat) 1
              else fl53Pair (d1.1 * 100) (2 ^ (-d1.2).toNat)
    if 0 ≤ d2.2 then d2.1 * 2 ^ d2.2.toNat
    else (2 * d2.1 + 2 ^ (-d2.2).toNat) / 2 ^ ((-d2.2).toNat + 1)

/-- `total > 0 ? Math.round((value / total) * 100) : 0` — the displayed
percentage in `SortableBase`'s tooltip (src/src/NotionChart.tsx line 108),
with the division and multiplication evaluated in binary64 as the program
does. -/
def percentDisplay (value total : Nat) : Nat :=
  if 0 < total then percentFloat value total else 0

/-- `((value / total) * 100).toFixed(0)` — the percentage string of the
second revision in src/src/NotionChart.tsx (line 456), which has no
`total > 0` guard: JS division by zero gives `NaN` (for `0/0`) or
`Infinity`, which `toFixed(0)` renders verbatim.  For positive totals
`toFixed(0)` rounds the exact double value to the nearest integer with
ties away from zero, agreeing with `Math.round` on non-negative values,
so both revisions display the same number. -/
def percentStringR2 (value total : Nat) : String :=
  if 0 < total then toString (percentFloat value total)
  else if value = 0 then "NaN" else "Infinity"

/-! ### Selection toggling (`toggleBase`) -/

/-- `toggleBase` of src/src/NotionChart.tsx lines 205-225 (identical in
`part_002` lines 387-404 and `part_000` lines 206-222): toggling the
`'all'` sentinel or an individual base, falling back to `['all']` when the
explicit set would become empty, and collapsing to `['all']` when every
base ends up selected. -/
def toggleBase (baseList selected : List String) (base : String) : List String :=
  if base = "all" then ["all"]
  else if selected.contains "all" then [base]
  else if selected.contains base then
    let newSel := selected.filter (fun b => b ≠ base)
    if newSel.length ≠ 0 then newSel else ["all"]
  else
    let newSel := selected ++ [base]
    if newSel.length = baseList.length then ["all"] else newSel

/-- `toggleBase` of the alternative revision in `src/unnamed/part_000`
lines 419-435: no `'all'` sentinel fallback — toggling `'all'` while all
bases are selected clears the selection, and removing a base simply
filters it out (possibly leaving the empty list). -/
def toggleBaseAlt (baseList selected : List String) (base : String) : List String :=
  let isAllSelected := selected.length = baseList.length
  if base = "all" then
    if isAllSelected then [] else baseList
  else
    if selected.contains base then selected.filter (fun b => b ≠ base)
    else selected ++ [base]

/-- A sequence of `toggleBase` interactions applied from left to right. -/
def toggleMany (baseList sel : List String) (bs : List String) : List String :=
  bs.foldl (fun s b => toggleBase baseList s b) sel

/-- Well-formedness of the selection state: either exactly the `['all']`
sentinel, or a non-empty explicit selection not containing the sentinel. -/
def SelInv (sel : List String) : Prop :=
  sel = ["all"] ∨ (sel ≠ [] ∧ "all" ∉ sel)

/-! ### Incremental diff application (`updateChartsByChanges`) -/

/-- The inner `{ [label: string]: number }` map of a `ChangesMap`. -/
abbrev LabelChanges := List (String × Nat)

/-- `ChangesMap` of `part_003`/`part_004`: chart title → label → new value. -/
abbrev ChangesMap := List (String × LabelChanges)

/-- Per-chart body of `updateChartsByChanges` (`part_003` lines 42-58,
`part_004` lines 37-55): if the chart's title is a key of `changes`, each
data point whose label is a key of the inner map gets the supplied value;
everything else is returned unchanged. -/
def applyItem (changes : ChangesMap) (chart : ChartItem) : ChartItem :=
  match changes.lookup chart.title with
  | none => chart
  | some m =>
    { chart with data := chart.data.map (fun d =>
        match m.lookup d.label with
        | none => d
        | some v => { label := d.label, value := v }) }

/-- `updateChartsByChanges` (`applyDiff` of the spec): maps `applyItem`
over the snapshot. -/
def updateChartsByChanges (charts : List ChartItem) (changes : ChangesMap) : List ChartItem :=
  charts.map (applyItem changes)

/-- The original value in snapshot `S` of the data point with label `lab`
inside the chart titled `t` (first occurrences, 0 if absent). -/
def origValue (S : List ChartItem) (t lab : String) : Nat :=
  match S.find? (fun c => c.title == t) with
  | none => 0
  | some c =>
    match c.data.find? (fun d => d.label == lab) with
    | none => 0
    | some d => d.value

/-- The inverse changes map of the round-trip claim: it maps each
title/label touched by `C` back to its original value in `S`. -/
def inverseChanges (S : List ChartItem) (C : ChangesMap) : ChangesMap :=
  C.map (fun tm => (tm.1, tm.2.map (fun lv => (lv.1, origValue S tm.1 lv.1))))

/-! ### Base discovery and display order -/

/-- JS `Set` insertion: append a base name unless already seen. -/
def insertUniq (acc : List String) (b : String) : List String :=
  if acc.contains b then acc else acc ++ [b]

/-- `Array.from(new Set(charts.map(c => c.title.split('::')[0])))` —
distinct base names in first-seen order. -/
def uniqueBases (cs : List ChartItem) : List String :=
  cs.foldl (fun acc c => insertUniq acc (baseOf c)) []

/-- `setOrderedBases(prev => prev.length ? prev.filter(b => bases.includes(b)) : bases)`
(src/src/NotionChart.tsx line 159): the order state is initialized from the
discovered bases when empty, otherwise filtered down to the bases still
present. -/
def updateOrderedBases (prev bases : List String) : List String :=
  if prev.length ≠ 0 then prev.filter (fun b => bases.contains b) else bases

/-- `orderedBases.filter(b => selectedBases.includes('all') || selectedBases.includes(b))`
(src/src/NotionChart.tsx line 246). -/
def displayedBases (orderedBases selectedBases : List String) : List String :=
  orderedBases.filter (fun b => selectedBases.contains "all" || selectedBases.contains b)

/-! ### Fetch as a state transition

`fetchData` (src/src/NotionChart.tsx lines 144-165) is asynchronous,
effectful code; it is embedded as a pure transition on the component state,
parameterised by the outcome of the HTTP request.  The returned `Bool`
records whether an error was caught and logged by the `catch` block. -/

/-- The component state touched by `fetchData`. -/
structure FetchState where
  charts : List ChartItem
  lastUpdated : Option Nat
  loading : Bool
  orderedBases : List String
deriving DecidableEq

/-- Outcome of the HTTP request seen by `fetchData`: the API URL may be
unset, the fetch may reject, or a response arrives with a status code and
a body.  The body is `none` when `res.json()` fails to parse; a parsed
body carries `some` of the optional `charts` field. -/
inductive FetchOutcome where
  | noUrl : FetchOutcome
  | netError : FetchOutcome
  | response : Nat → Option (Option (List ChartItem)) → FetchOutcome
deriving DecidableEq

/-- `res.ok`: HTTP status in the 2xx range. -/
def statusOk (s : Nat) : Bool := 200 ≤ s && s ≤ 299

/-- The transition of `fetchData`: `setLoading(true)`, then either throw
(URL unset, fetch rejection, `!res.ok`, or JSON parse failure — all caught
and logged) or `setCharts(json.charts || [])`, `setLastUpdated`, and the
ordered-bases update; `finally` clears the loading flag.  When the parsed
body lacks a `charts` field, `setCharts([])` and `setLastUpdated` have
already run before `json.charts.map` throws (line 158), so that slip is
modelled faithfully. -/
def fetchDataStep (st : FetchState) (now : Nat) (out : FetchOutcome) : FetchState × Bool :=
  let st1 := { st with loading := true }
  match out with
  | .noUrl => ({ st1 with loading := false }, true)
  | .netError => ({ st1 with loading := false }, true)
  | .response status body =>
    if !statusOk status then ({ st1 with loading := false }, true)
    else
      match body with
      | none => ({ st1 with loading := false }, true)
      | some chartsField =>
        let st2 := { st1 with charts := chartsField.getD [], lastUpdated := some now }
        match chartsField with
        | none => ({ st2 with loading := false }, true)
        | some cs =>
          let bases := uniqueBases cs
          ({ st2 with orderedBases := updateOrderedBases st2.orderedBases bases,
                      loading := false }, false)

/-- The error cases of the claim: endpoint unset, network failure, non-2xx
status, or unparsable body. -/
def fetchFails : FetchOutcome → Bool
  | .noUrl => true
  | .netError => true
  | .response status body => !statusOk status || body.isNone

/-! ### WebSocket reconnect backoff (`part_002`) -/

/-- `MAX_RECONNECT_ATTEMPTS` (`part_002` line 158). -/
def MAX_RECONNECT_ATTEMPTS : Nat := 8

/-- `Math.min(1000 * 2 ** attempt, 30000)` (`part_002` line 232). -/
def backoffDelay (attempt : Nat) : Nat := min (1000 * 2 ^ attempt) 30000

/-- Channel status as reported to the UI. -/
inductive WsStatus where
  | disconnected : WsStatus
  | connecting : WsStatus
  | connected : WsStatus
deriving DecidableEq

/-- The mutable reconnect bookkeeping of `part_002`:
`reconnectAttemptsRef`, the pending reconnect timer (holding its delay in
milliseconds), and `wsStatus`. -/
structure WsState where
  reconnectAttempts : Nat
  pendingDelay : Option Nat
  wsStatus : WsStatus
deriving DecidableEq

/-- `scheduleReconnect` (`part_002` lines 220-237): clear any pending
timer; if the incremented attempt counter exceeds the budget, give up and
report `disconnected`; otherwise store the counter and schedule the
backoff delay (the explicit `delayMs` argument overrides the computed
backoff, as in the source). -/
def scheduleReconnect (delayMs : Option Nat) (st : WsState) : WsState :=
  let st := { st with pendingDelay := none }
  let attempt := st.reconnectAttempts + 1
  if MAX_RECONNECT_ATTEMPTS < attempt then
    { st with wsStatus := .disconnected }
  else
    { st with reconnectAttempts := attempt,
              pendingDelay := some (delayMs.getD (backoffDelay attempt)) }

/-- One channel closure as seen by `ws.onclose` (`part_002` lines
295-302): report `disconnected`, then `scheduleReconnect()`. -/
def onCloseStep (st : WsState) : WsState :=
  scheduleReconnect none { st with wsStatus := .disconnected }

/-- The delays scheduled by `n` consecutive closures starting from a
freshly connected state (attempt counter 0). -/
def closureDelays : Nat → WsState → List Nat
  | 0, _ => []
  | n + 1, st =>
    let st1 := onCloseStep st
    match st1.pendingDelay with
    | none => []
    | some d => d :: closureDelays n st1

/-! ### The `part_001` grouping pipeline (subtask folding) -/

/-- One rendering bucket of `groupedByBaseAndSlot`: the sloted parent
chart and the null-slot subtasks attached to it (in push order). -/
structure Bucket where
  parent : ChartItem
  subtasks : List ChartItem
deriving DecidableEq

/-- The slots of one base: `{ [slot: number]: { parent, subtasks } }` as
an association list in key order. -/
abbrev BaseGroup := List (Int × Bucket)

/-- `groupedByBaseAndSlot`: base name → `BaseGroup`, in insertion order. -/
abbrev Grouped := List (String × BaseGroup)

/-- `groupedByBaseAndSlot[baseName][chart.slot] = { parent: chart, subtasks: [] }`:
overwrite the bucket at an existing slot key in place, or append a new key. -/
def setParentBG : BaseGroup → Int → ChartItem → BaseGroup
  | [], s, c => [(s, ⟨c, []⟩)]
  | (s', bk) :: rest, s, c =>
    if s' = s then (s', ⟨c, []⟩) :: rest
    else (s', bk) :: setParentBG rest s c

/-- The first pass of `part_001` (lines 124-131) for one chart: ensure the
base's group object exists, and register the chart as a parent when its
slot is non-null. -/
def addParentG : Grouped → ChartItem → Grouped
  | [], c =>
    match c.slot with
    | none => [(baseOf c, [])]
    | some s => [(baseOf c, [(s, ⟨c, []⟩)])]
  | (b, bg) :: rest, c =>
    if b = baseOf c then
      match c.slot with
      | none => (b, bg) :: rest
      | some s => (b, setParentBG bg s c) :: rest
    else (b, bg) :: addParentG rest c

/-- The full parents pass over the filtered chart list. -/
def parentsPass (l : List ChartItem) : Grouped := l.foldl addParentG []

/-- The backwards scan of `part_001` lines 137-143, applied to the
reversed prefix before the subtask: the nearest preceding chart with a
non-null slot and the same base, together with its slot. -/
def findPrevParent : List ChartItem → String → Option (Int × ChartItem)
  | [], _ => none
  | c :: rest, b =>
    match c.slot with
    | some s => if baseOf c = b then some (s, c) else findPrevParent rest b
    | none => findPrevParent rest b

/-- `groupedByBaseAndSlot[baseName][prev.slot].subtasks.push(chart)` at the
slot level: append the subtask to the first bucket with the given key. -/
def pushSubBG : BaseGroup → Int → ChartItem → BaseGroup
  | [], _, _ => []
  | (s', bk) :: rest, s, c =>
    if s' = s then (s', ⟨bk.parent, bk.subtasks ++ [c]⟩) :: rest
    else (s', bk) :: pushSubBG rest s c

/-- The same push at the base level. -/
def pushSub : Grouped → String → Int → ChartItem → Grouped
  | [], _, _, _ => []
  | (b', bg) :: rest, b, s, c =>
    if b' = b then (b', pushSubBG bg s c) :: rest
    else (b', bg) :: pushSub rest b s c

/-- The body of `part_001`'s second `forEach` (lines 134-145): a chart at
index `i` with a null slot is pushed into the bucket of the nearest
preceding sloted chart of the same base, if one exists. -/
def subtaskStep (l : List ChartItem) (g : Grouped) (i : Nat) (c : ChartItem) : Grouped :=
  match c.slot with
  | some _ => g
  | none =>
    match findPrevParent ((l.take i).reverse) (baseOf c) with
    | none => g
    | some (s, _) => pushSub g (baseOf c) s c

/-- The indexed traversal of the second `forEach`. -/
def subtasksGo (l : List ChartItem) : Grouped → Nat → List ChartItem → Grouped
  | g, _, [] => g
  | g, i, c :: rest => subtasksGo l (subtaskStep l g i c) (i + 1) rest

/-- `groupedByBaseAndSlot` after both passes of `part_001`. -/
def groupedP1 (l : List ChartItem) : Grouped :=
  subtasksGo l (parentsPass l) 0 l

/-- The per-base sort of `part_001` lines 148-152:
`Object.entries(...).sort(([slotA], [slotB]) => Number(slotA) - Number(slotB))`. -/
def sortBySlot (bg : BaseGroup) : BaseGroup :=
  List.insertionSort (fun x y => x.1 ≤ y.1) bg

/-- The grouped structure with each base's slots sorted ascending. -/
def sortedGroupedP1 (l : List ChartItem) : Grouped :=
  (groupedP1 l).map (fun p => (p.1, sortBySlot p.2))

/-- `combinedData.find(c => c.label === sd.label)`: add the value to the
first point with a matching label, else push a copy of the point
(`part_001` lines 189-198). -/
def addPoint : List ChartDataPoint → ChartDataPoint → List ChartDataPoint
  | [], sd => [sd]
  | d :: rest, sd =>
    if d.label = sd.label then { label := d.label, value := d.value + sd.value } :: rest
    else d :: addPoint rest sd

/-- `combinedData` of one bucket (`part_001` lines 185-198): the parent's
points, then every subtask's points merged in by label. -/
def combinedData (parent : ChartItem) (subs : List ChartItem) : List ChartDataPoint :=
  subs.foldl (fun acc sub => sub.data.foldl addPoint acc) parent.data

/-- The render-ready projection of `part_001`: per base (in first-seen
order), the slot-sorted charts with their folded data. -/
def renderP1 (l : List ChartItem) : List (String × List (Int × List ChartDataPoint)) :=
  (sortedGroupedP1 l).map (fun p =>
    (p.1, p.2.map (fun q => (q.1, combinedData q.2.parent q.2.subtasks))))

/-! ### Predicates used by the grouping theorems -/

/-- Every bucket's parent chart carries exactly the slot it is keyed by. -/
def ParentsOK (g : Grouped) : Prop :=
  ∀ p ∈ g, ∀ q ∈ p.2, (q.2 : Bucket).parent.slot = some q.1

/-- The bucket key `(b, s)` exists in the grouped structure. -/
def HasKey (g : Grouped) (b : String) (s : Int) : Prop :=
  ∃ p ∈ g, p.1 = b ∧ ∃ q ∈ p.2, (q : Int × Bucket).1 = s

/-- Chart `c` is registered as a subtask in the bucket keyed `(b, s)`. -/
def MemSub (g : Grouped) (b : String) (s : Int) (c : ChartItem) : Prop :=
  ∃ p ∈ g, p.1 = b ∧ ∃ q ∈ p.2, (q : Int × Bucket).1 = s ∧ c ∈ q.2.subtasks

/-- The base keys of the grouped structure are pairwise distinct (they are
JS object keys). -/
def BasesNodup (g : Grouped) : Prop := (g.map (fun p => p.1)).Nodup

/-- The scenario items of the fold claim. -/
def projA : ChartItem := ⟨"Proj::A", some 1, [⟨"Done", 3⟩, ⟨"Not started", 1⟩]⟩

/-- The null-slot subtask immediately following `projA`. -/
def projSub : ChartItem := ⟨"Proj::Sub", none, [⟨"Done", 2⟩]⟩

/-! ### Grouping of src/src/NotionChart.tsx (lines 233-243) -/

/-- `if (!grouped[baseName]) grouped[baseName] = []; grouped[baseName].push(c)`:
append the chart to the first group with the given base key, creating the
key at the end when absent. -/
def pushGroup : List (String × List ChartItem) → String → ChartItem → List (String × List ChartItem)
  | [], b, c => [(b, [c])]
  | (b', g) :: rest, b, c =>
    if b' = b then (b', g ++ [c]) :: rest
    else (b', g) :: pushGroup rest b c

/-- The grouping loop of src/src/NotionChart.tsx lines 233-238: charts
bucketed by base name in first-seen key order. -/
def groupByBase (l : List ChartItem) : List (String × List ChartItem) :=
  l.foldl (fun g c => pushGroup g (baseOf c) c) []

/-- The per-base sort of src/src/NotionChart.tsx lines 241-243:
`grouped[baseName].sort((a, b) => (a.slot ?? 0) - (b.slot ?? 0))`. -/
def sortGroupCharts (G : List (String × List ChartItem)) : List (String × List ChartItem) :=
  G.map (fun p => (p.1, List.insertionSort (fun a b => a.slot.getD 0 ≤ b.slot.getD 0) p.2))

/-- Whether a character sequence contains the `"::"` separator. -/
def hasSep : List Char → Bool
  | [] => false
  | ':' :: ':' :: _ => true
  | _ :: rest => hasSep rest

/-! ## Theorems -/

theorem toggleBase_selInv (bl sel : List String) (b : String) (h : SelInv sel) :
    SelInv (toggleBase bl sel b) := by
  unfold toggleBase
  split
  · exact Or.inl rfl
  · next hb =>
    split
    · next hall =>
      refine Or.inr ⟨by simp, ?_⟩
      simp only [List.mem_singleton]
      exact fun he => hb he.symm
    · next hall =>
      have hns : "all" ∉ sel := fun hm => hall (List.elem_iff.mpr hm)
      split
      · next hsel =>
        dsimp only
        split
        · next hlen =>
          refine Or.inr ⟨?_, ?_⟩
          · intro he
            rw [he] at hlen
            simp at hlen
          · intro hm
            exact hns (List.mem_of_mem_filter hm)
        · exact Or.inl rfl
      · next hsel =>
        dsimp only
        split
        · exact Or.inl rfl
        · refine Or.inr ⟨by simp, ?_⟩
          intro hm
          rcases List.mem_append.mp hm with h1 | h1
          · exact hns h1
          · exact hb (List.mem_singleton.mp h1).symm

theorem toggleMany_selInv (bl : List String) (bs : List String) :
    ∀ sel, SelInv sel → SelInv (toggleMany bl sel bs) := by
  induction bs with
  | nil => intro sel h; exact h
  | cons b rest ih =>
    intro sel h
    exact ih (toggleBase bl sel b) (toggleBase_selInv bl sel b h)

/-- Claim C5 counterexample: in the revision of `src/unnamed/part_000`
(lines 419-435), toggling off the only remaining selected base yields the
empty selection, not the `['all']` sentinel. -/
theorem toggle_last_base_alt_cex :
    toggleBaseAlt ["X", "Y"] ["X"] "X" = [] ∧
    toggleBaseAlt ["X", "Y"] ["X"] "X" ≠ ["all"] := by
  constructor
  · decide
  · decide

/-- Claim C5 (amended): the `toggleBase` of src/src/NotionChart.tsx (and
of `part_002` and the first revision of `part_000`) never returns an empty
selection, and toggling off the only remaining selected base yields the
`['all']` sentinel; the alternative revision of `part_000` instead returns
the empty list in that situation (see the counterexample). -/
theorem toggleBase_never_empty :
    (∀ baseList selected base, toggleBase baseList selected base ≠ []) ∧
    (∀ baseList base, toggleBase baseList [base] base = ["all"]) := by
  constructor
  · intro bl sel b
    unfold toggleBase
    split
    · simp
    · split
      · simp
      · split
        · dsimp only
          split
          · next hlen =>
            intro he
            rw [he] at hlen
            simp at hlen
          · simp
        · dsimp only
          split
          · simp
          · simp
  · intro bl b
    by_cases hb : b = "all"
    · simp [toggleBase, hb]
    · have h1 : ¬ ([b].contains "all" = true) := fun hc =>
        hb (List.mem_singleton.mp (List.elem_iff.mp hc)).symm
      have h1f : [b].contains "all" = false := by
        cases hcc : [b].contains "all"
        · rfl
        · exact absurd hcc h1
      have h2 : [b].contains b = true := List.elem_iff.mpr (List.mem_singleton.mpr rfl)
      simp only [toggleBase, hb, h1f, h2, if_false, if_true]
      simp [fun he : "all" = b => hb he.symm]

/-- Claim C10: starting from the initial `['all']` state, any sequence of
`toggleBase` interactions keeps the selection well-formed: it is either
exactly the `['all']` sentinel or a non-empty explicit selection that does
not contain the sentinel; and an explicit selection that grows to cover
every base (the length comparison the source performs) collapses to
`['all']`. -/
theorem toggle_selection_wf :
    (∀ baseList bs, SelInv (toggleMany baseList ["all"] bs)) ∧
    (∀ baseList sel base, "all" ∉ sel → base ∉ sel → base ≠ "all" →
      sel.length + 1 = baseList.length → toggleBase baseList sel base = ["all"]) := by
  constructor
  · intro bl bs
    exact toggleMany_selInv bl bs ["all"] (Or.inl rfl)
  · intro bl sel b hall hb hbne hlen
    have c1 : ¬ (sel.contains "all" = true) := fun hc => hall (List.elem_iff.mp hc)
    have c2 : ¬ (sel.contains b = true) := fun hc => hb (List.elem_iff.mp hc)
    unfold toggleBase
    rw [if_neg hbne, if_neg c1, if_neg c2]
    dsimp only
    rw [if_pos (by simpa using hlen)]

/-- Claim C10 witness: the invariant and the collapse rule at concrete
inputs. -/
theorem toggle_selection_wf_witness :
    SelInv (toggleMany ["X", "Y"] ["all"] ["X"]) ∧
    toggleBase ["X", "Y"] ["X"] "Y" = ["all"] :=
  ⟨toggle_selection_wf.1 ["X", "Y"] ["X"],
   toggle_selection_wf.2 ["X", "Y"] ["X"] "Y" (by decide) (by decide) (by decide) (by decide)⟩

theorem chartTotal_eq_sum (data : List ChartDataPoint) :
    chartTotal data = (data.map (fun d => d.value)).sum := by
  rw [chartTotal, List.sum_eq_foldl, List.foldl_map]

theorem log2Fuel_spec (f : ℕ) : ∀ n : ℕ, 1 ≤ n → n ≤ f →
    2 ^ log2Fuel f n ≤ n ∧ n < 2 ^ (log2Fuel f n + 1) := by
  induction f with
  | zero => intro n h1 h2; omega
  | succ f ih =>
    intro n h1 h2
    by_cases hn : n ≤ 1
    · rw [log2Fuel, if_pos hn]
      omega
    · rw [log2Fuel, if_neg hn]
      have hrec := ih (n / 2) (by omega) (by omega)
      have h2p : 2 ^ (log2Fuel f (n / 2) + 1) = 2 * 2 ^ log2Fuel f (n / 2) := by
        ring
      have h2p2 : 2 ^ (log2Fuel f (n / 2) + 1 + 1) = 2 * 2 ^ (log2Fuel f (n / 2) + 1) := by
        ring
      omega

theorem natLog2_le (n : ℕ) (h : 1 ≤ n) : 2 ^ natLog2 n ≤ n :=
  (log2Fuel_spec n n h (le_refl n)).1

theorem natLog2_gt (n : ℕ) (h : 1 ≤ n) : n < 2 ^ (natLog2 n + 1) :=
  (log2Fuel_spec n n h (le_refl n)).2

theorem floorLog2Q_le (num den : ℕ) (hn : 1 ≤ num) (hd : 1 ≤ den) :
    (2 : ℚ) ^ floorLog2Q num den ≤ (num : ℚ) / den := by
  have hdQ : (0 : ℚ) < den := by positivity
  by_cases hcase : den ≤ num
  · rw [floorLog2Q, if_pos hcase, zpow_natCast]
    have h1 : 1 ≤ num / den := (Nat.one_le_div_iff (by omega)).mpr hcase
    have h2 : (2 : ℕ) ^ natLog2 (num / den) ≤ num / den := natLog2_le _ h1
    calc (2 : ℚ) ^ natLog2 (num / den) = ((2 ^ natLog2 (num / den) : ℕ) : ℚ) := by push_cast; ring
    _ ≤ ((num / den : ℕ) : ℚ) := by exact_mod_cast h2
    _ ≤ (num : ℚ) / den := Nat.cast_div_le
  · rw [floorLog2Q, if_neg hcase]
    have hlt : num < den := by omega
    have h1 : 1 ≤ den / num := (Nat.one_le_div_iff (by omega)).mpr (by omega)
    by_cases heq : den = num * 2 ^ natLog2 (den / num)
    · rw [if_pos heq]
      rw [zpow_neg, zpow_natCast, inv_eq_one_div,
          div_le_div_iff (by positivity) hdQ]
      have hc : (den : ℚ) = (num : ℚ) * 2 ^ natLog2 (den / num) := by
        exact_mod_cast congrArg (Nat.cast : ℕ → ℚ) heq
      push_cast at hc ⊢
      linarith
    · rw [if_neg heq]
      have hub : den / num < 2 ^ (natLog2 (den / num) + 1) := natLog2_gt _ h1
      have hden : den ≤ num * 2 ^ (natLog2 (den / num) + 1) := by
        have hdm := Nat.div_add_mod den num
        have hmod : den % num < num := Nat.mod_lt _ (by omega)
        calc den = num * (den / num) + den % num := hdm.symm
        _ ≤ num * (den / num) + num - 1 := by omega
        _ ≤ num * (den / num + 1) := by
            rw [Nat.mul_add, Nat.mul_one]
            omega
        _ ≤ num * 2 ^ (natLog2 (den / num) + 1) :=
            Nat.mul_le_mul_left _ (by omega)
      rw [zpow_neg]
      rw [inv_eq_one_div]
      have hz : ((natLog2 (den / num) : ℤ) + 1) = ((natLog2 (den / num) + 1 : ℕ) : ℤ) := by
        push_cast
        ring
      rw [hz, zpow_natCast]
      rw [div_le_div_iff (by positivity) hdQ]
      have := (Nat.cast_le (α := ℚ)).mpr hden
      push_cast at this ⊢
      linarith

theorem roundNearestEven_err (num den : ℕ) (hd : 1 ≤ den) :
    |((roundNearestEven num den : ℚ)) - (num : ℚ) / den| ≤ 1 / 2 := by
  have hdQ : (0 : ℚ) < den := by positivity
  have hdm := Nat.div_add_mod num den
  have hmod : num % den < den := Nat.mod_lt _ (by omega)
  have hq : (num : ℚ) / den = ((num / den : ℕ) : ℚ) + ((num % den : ℕ) : ℚ) / den := by
    have hcast : ((den * (num / den) + num % den : ℕ) : ℚ) = (num : ℚ) := by
      exact_mod_cast congrArg (Nat.cast : ℕ → ℚ) hdm
    push_cast at hcast
    field_simp
    linarith
  have hr0 : (0 : ℚ) ≤ ((num % den : ℕ) : ℚ) / den := by positivity
  rw [roundNearestEven]
  by_cases h1 : den < 2 * (num % den)
  · rw [if_pos h1]
    have hgt : 1 / 2 ≤ ((num % den : ℕ) : ℚ) / den := by
      rw [div_le_div_iff (by norm_num) hdQ]
      have := (Nat.cast_le (α := ℚ)).mpr (Nat.le_of_lt h1)
      push_cast at this ⊢
      linarith
    have hlt : ((num % den : ℕ) : ℚ) / den < 1 := by
      rw [div_lt_one hdQ]
      exact_mod_cast hmod
    rw [hq, abs_le]
    constructor
    · push_cast
      linarith
    · push_cast
      linarith
  · rw [if_neg h1]
    have hle : ((num % den : ℕ) : ℚ) / den ≤ 1 / 2 ∨
        (2 * (num % den) = den ∧ ((num % den : ℕ) : ℚ) / den = 1 / 2) := by
      left
      rw [div_le_div_iff hdQ (by norm_num)]
      have h2 : 2 * (num % den) ≤ den := by omega
      have := (Nat.cast_le (α := ℚ)).mpr h2
      push_cast at this ⊢
      linarith
    have hle2 : ((num % den : ℕ) : ℚ) / den ≤ 1 / 2 := by
      rcases hle with h | ⟨_, h⟩
      · exact h
      · rw [h]
    by_cases h2 : 2 * (num % den) < den
    · rw [if_pos h2, hq, abs_le]
      constructor
      · push_cast
        linarith
      · push_cast
        linarith
    · have htie : 2 * (num % den) = den := by omega
      by_cases h3 : num / den % 2 = 0
      · rw [if_neg h2, if_pos h3, hq, abs_le]
        constructor
        · push_cast
          linarith
        · push_cast
          linarith
      · rw [if_neg h2, if_neg h3, hq, abs_le]
        have heq : ((num % den : ℕ) : ℚ) / den = 1 / 2 := by
          rw [div_eq_div_iff hdQ.ne' (by norm_num : (2 : ℚ) ≠ 0)]
          have := (Nat.cast_inj (R := ℚ)).mpr htie
          push_cast at this ⊢
          linarith
        constructor
        · push_cast
          linarith
        · push_cast
          linarith

theorem fl53Pair_err (num den : ℕ) (hn : 1 ≤ num) (hd : 1 ≤ den) :
    |flVal (fl53Pair num den) - (num : ℚ) / den| ≤ ((num : ℚ) / den) / 2 ^ 53 := by
  have hdQ : (0 : ℚ) < den := by positivity
  have hL := floorLog2Q_le num den hn hd
  have hhalf : (2 : ℚ) ^ (floorLog2Q num den - 52) / 2 ≤ ((num : ℚ) / den) / 2 ^ 53 := by
    have hsplit : (2 : ℚ) ^ floorLog2Q num den
        = (2 : ℚ) ^ (floorLog2Q num den - 52) * 2 ^ (52 : ℕ) := by
      rw [← zpow_natCast (2 : ℚ) 52, ← zpow_add₀ (by norm_num : (2 : ℚ) ≠ 0)]
      congr 1
      push_cast
      ring
    rw [div_le_div_iff (by norm_num) (by positivity : (0 : ℚ) < 2 ^ 53)]
    have h2 : (0 : ℚ) < 2 ^ (52 : ℕ) := by positivity
    nlinarith [hL, hsplit]
  refine le_trans ?_ hhalf
  rw [fl53Pair]
  by_cases he : 0 ≤ floorLog2Q num den - 52
  · rw [if_pos he]
    set e : Int := floorLog2Q num den - 52 with hedef
    have hK : ((e.toNat : ℤ)) = e := Int.toNat_of_nonneg he
    have hzp : (2 : ℚ) ^ e = 2 ^ e.toNat := by
      conv_lhs => rw [← hK]
      rw [zpow_natCast]
    have hden2 : 1 ≤ den * 2 ^ e.toNat := Nat.one_le_iff_ne_zero.mpr (by positivity)
    have herr := roundNearestEven_err num (den * 2 ^ e.toNat) hden2
    have hpos : (0 : ℚ) < 2 ^ e.toNat := by positivity
    rw [flVal]
    dsimp only
    rw [hzp]
    have hratio : ((num : ℚ)) / ((den * 2 ^ e.toNat : ℕ) : ℚ) * 2 ^ e.toNat
        = (num : ℚ) / den := by
      push_cast
      field_simp
      ring
    calc |(roundNearestEven num (den * 2 ^ e.toNat) : ℚ) * 2 ^ e.toNat - (num : ℚ) / den|
        = |(roundNearestEven num (den * 2 ^ e.toNat) : ℚ)
            - (num : ℚ) / ((den * 2 ^ e.toNat : ℕ) : ℚ)| * 2 ^ e.toNat := by
          rw [← hratio, ← sub_mul, abs_mul, abs_of_pos hpos]
    _ ≤ 1 / 2 * 2 ^ e.toNat := by
          exact mul_le_mul_of_nonneg_right herr (le_of_lt hpos)
    _ = (2 : ℚ) ^ e.toNat / 2 := by
          ring
  · rw [if_neg he]
    set e : Int := floorLog2Q num den - 52 with hedef
    have he2 : 0 ≤ -e := by omega
    have hK : (((-e).toNat : ℤ)) = -e := Int.toNat_of_nonneg he2
    have hzp : (2 : ℚ) ^ e = ((2 : ℚ) ^ (-e).toNat)⁻¹ := by
      rw [← zpow_natCast (2 : ℚ) (-e).toNat, hK, ← zpow_neg, neg_neg]
    have herr := roundNearestEven_err (num * 2 ^ (-e).toNat) den hd
    have hpos : (0 : ℚ) < 2 ^ (-e).toNat := by positivity
    rw [flVal]
    dsimp only
    rw [hzp]
    have hratio : ((num * 2 ^ (-e).toNat : ℕ) : ℚ) / den * ((2 : ℚ) ^ (-e).toNat)⁻¹
        = (num : ℚ) / den := by
      push_cast
      field_simp
      ring
    calc |(roundNearestEven (num * 2 ^ (-e).toNat) den : ℚ) * ((2 : ℚ) ^ (-e).toNat)⁻¹
          - (num : ℚ) / den|
        = |(roundNearestEven (num * 2 ^ (-e).toNat) den : ℚ)
            - ((num * 2 ^ (-e).toNat : ℕ) : ℚ) / den| * ((2 : ℚ) ^ (-e).toNat)⁻¹ := by
          rw [← hratio, ← sub_mul, abs_mul, abs_of_pos (inv_pos.mpr hpos)]
    _ ≤ 1 / 2 * ((2 : ℚ) ^ (-e).toNat)⁻¹ := by
          exact mul_le_mul_of_nonneg_right herr (by positivity)
    _ = ((2 : ℚ) ^ (-e).toNat)⁻¹ / 2 := by ring

theorem fl53Pair_pos (num den : ℕ) (hn : 1 ≤ num) (hd : 1 ≤ den) :
    1 ≤ (fl53Pair num den).1 := by
  by_contra hm
  have hm0 : (fl53Pair num den).1 = 0 := by omega
  have herr := fl53Pair_err num den hn hd
  have hq : (0 : ℚ) < (num : ℚ) / den := by positivity
  rw [flVal, hm0] at herr
  simp only [Nat.cast_zero, zero_mul, zero_sub, abs_neg] at herr
  rw [abs_of_pos hq] at herr
  nlinarith [hq]

theorem floorHalf_err (m k : ℕ) :
    |(((2 * m + 2 ^ k) / 2 ^ (k + 1) : ℕ) : ℚ) - (m : ℚ) / 2 ^ k| ≤ 1 / 2 := by
  have hD : (0 : ℚ) < ((2 ^ (k + 1) : ℕ) : ℚ) := by positivity
  have hdm := Nat.div_add_mod (2 * m + 2 ^ k) (2 ^ (k + 1))
  have hmod : (2 * m + 2 ^ k) % 2 ^ (k + 1) < 2 ^ (k + 1) :=
    Nat.mod_lt _ (by positivity)
  have hval : ((2 * m + 2 ^ k : ℕ) : ℚ) / ((2 ^ (k + 1) : ℕ) : ℚ)
      = (m : ℚ) / 2 ^ k + 1 / 2 := by
    push_cast
    rw [div_add_div _ _ (by positivity : ((2 : ℚ) ^ k) ≠ 0) (by norm_num : (2 : ℚ) ≠ 0)]
    rw [div_eq_div_iff (by positivity) (by positivity)]
    ring
  have hfloor : ((2 * m + 2 ^ k : ℕ) : ℚ) / ((2 ^ (k + 1) : ℕ) : ℚ)
      = (((2 * m + 2 ^ k) / 2 ^ (k + 1) : ℕ) : ℚ)
        + (((2 * m + 2 ^ k) % 2 ^ (k + 1) : ℕ) : ℚ) / ((2 ^ (k + 1) : ℕ) : ℚ) := by
    have hcast : ((2 ^ (k + 1) * ((2 * m + 2 ^ k) / 2 ^ (k + 1))
        + (2 * m + 2 ^ k) % 2 ^ (k + 1) : ℕ) : ℚ) = ((2 * m + 2 ^ k : ℕ) : ℚ) := by
      exact_mod_cast congrArg (Nat.cast : ℕ → ℚ) hdm
    push_cast at hcast ⊢
    field_simp
    linarith
  have hr0 : (0 : ℚ) ≤ (((2 * m + 2 ^ k) % 2 ^ (k + 1) : ℕ) : ℚ) / ((2 ^ (k + 1) : ℕ) : ℚ) := by
    positivity
  have hr1 : (((2 * m + 2 ^ k) % 2 ^ (k + 1) : ℕ) : ℚ) / ((2 ^ (k + 1) : ℕ) : ℚ) < 1 := by
    rw [div_lt_one hD]
    exact_mod_cast hmod
  have hkey : (((2 * m + 2 ^ k) / 2 ^ (k + 1) : ℕ) : ℚ) - (m : ℚ) / 2 ^ k
      = 1 / 2 - (((2 * m + 2 ^ k) % 2 ^ (k + 1) : ℕ) : ℚ) / ((2 ^ (k + 1) : ℕ) : ℚ) := by
    have := hval.symm.trans hfloor
    linarith
  rw [hkey, abs_le]
  constructor
  · linarith
  · linarith

theorem percentFloat_err (v t : ℕ) (hv : 1 ≤ v) (ht : 1 ≤ t) :
    |((percentFloat v t : ℚ)) - 100 * (v : ℚ) / t| ≤ 1 / 2 + 100 * (v : ℚ) / t / 2 ^ 51 := by
  have hv0 : v ≠ 0 := Nat.one_le_iff_ne_zero.mp hv
  rw [mul_div_assoc (100 : ℚ) ((v : ℚ)) ((t : ℚ))]
  set q : ℚ := (v : ℚ) / t with hqdef
  have hq0 : (0 : ℚ) < q := by
    rw [hqdef]
    positivity
  have hE1 := fl53Pair_err v t hv ht
  rw [← hqdef] at hE1
  have hm1 := fl53Pair_pos v t hv ht
  rw [percentFloat, if_neg hv0]
  dsimp only
  have hstage2 : ∃ num2 den2 : ℕ, 1 ≤ num2 ∧ 1 ≤ den2 ∧
      ((num2 : ℚ)) / den2 = 100 * flVal (fl53Pair v t) ∧
      (if 0 ≤ (fl53Pair v t).2 then fl53Pair ((fl53Pair v t).1 * 100 * 2 ^ (fl53Pair v t).2.toNat) 1
       else fl53Pair ((fl53Pair v t).1 * 100) (2 ^ (-(fl53Pair v t).2).toNat))
        = fl53Pair num2 den2 := by
    by_cases h1 : 0 ≤ (fl53Pair v t).2
    · refine ⟨(fl53Pair v t).1 * 100 * 2 ^ (fl53Pair v t).2.toNat, 1, ?_, le_refl 1, ?_, ?_⟩
      · have h2p : 1 ≤ 2 ^ (fl53Pair v t).2.toNat := Nat.one_le_two_pow
        calc (1 : ℕ) ≤ 1 * 100 * 1 := by norm_num
        _ ≤ (fl53Pair v t).1 * 100 * 2 ^ (fl53Pair v t).2.toNat :=
            Nat.mul_le_mul (Nat.mul_le_mul hm1 (le_refl 100)) h2p
      · rw [flVal]
        have hzp : (2 : ℚ) ^ (fl53Pair v t).2 = 2 ^ (fl53Pair v t).2.toNat := by
          conv_lhs => rw [← Int.toNat_of_nonneg h1]
          rw [zpow_natCast]
        rw [hzp]
        push_cast
        ring
      · rw [if_pos h1]
    · refine ⟨(fl53Pair v t).1 * 100, 2 ^ (-(fl53Pair v t).2).toNat, ?_, ?_, ?_, ?_⟩
      · calc (1 : ℕ) ≤ 1 * 100 := by norm_num
        _ ≤ (fl53Pair v t).1 * 100 := Nat.mul_le_mul hm1 (le_refl 100)
      · exact Nat.one_le_two_pow
      · rw [flVal]
        have he2 : 0 ≤ -(fl53Pair v t).2 := by omega
        have hzp : (2 : ℚ) ^ (fl53Pair v t).2 = ((2 : ℚ) ^ (-(fl53Pair v t).2).toNat)⁻¹ := by
          rw [← zpow_natCast (2 : ℚ) (-(fl53Pair v t).2).toNat, Int.toNat_of_nonneg he2,
              ← zpow_neg, neg_neg]
        rw [hzp]
        push_cast
        field_simp
        ring
      · rw [if_neg h1]
  obtain ⟨num2, den2, hn2, hd2, hratio2, hd2eq⟩ := hstage2
  rw [hd2eq]
  have hE2 := fl53Pair_err num2 den2 hn2 hd2
  rw [hratio2] at hE2
  have hA1 : flVal (fl53Pair v t) ≤ q + q / 2 ^ 53 := by
    have := abs_le.mp hE1
    linarith [this.2]
  have hfinal : |(((if 0 ≤ (fl53Pair num2 den2).2
        then (fl53Pair num2 den2).1 * 2 ^ (fl53Pair num2 den2).2.toNat
        else (2 * (fl53Pair num2 den2).1 + 2 ^ (-(fl53Pair num2 den2).2).toNat)
          / 2 ^ ((-(fl53Pair num2 den2).2).toNat + 1) : ℕ) : ℚ))
      - flVal (fl53Pair num2 den2)| ≤ 1 / 2 := by
    by_cases h2 : 0 ≤ (fl53Pair num2 den2).2
    · rw [if_pos h2, flVal]
      have hzp : (2 : ℚ) ^ (fl53Pair num2 den2).2 = 2 ^ (fl53Pair num2 den2).2.toNat := by
        conv_lhs => rw [← Int.toNat_of_nonneg h2]
        rw [zpow_natCast]
      rw [hzp]
      have hc : ((((fl53Pair num2 den2).1 * 2 ^ (fl53Pair num2 den2).2.toNat : ℕ) : ℚ))
          = ((fl53Pair num2 den2).1 : ℚ) * 2 ^ (fl53Pair num2 den2).2.toNat := by
        push_cast
        ring
      rw [hc]
      simp
    · rw [if_neg h2, flVal]
      have he2 : 0 ≤ -(fl53Pair num2 den2).2 := by omega
      have hzp : (2 : ℚ) ^ (fl53Pair num2 den2).2
          = ((2 : ℚ) ^ (-(fl53Pair num2 den2).2).toNat)⁻¹ := by
        rw [← zpow_natCast (2 : ℚ) (-(fl53Pair num2 den2).2).toNat,
            Int.toNat_of_nonneg he2, ← zpow_neg, neg_neg]
      rw [hzp]
      have hmk := floorHalf_err (fl53Pair num2 den2).1 (-(fl53Pair num2 den2).2).toNat
      have hinv : ((fl53Pair num2 den2).1 : ℚ) * ((2 : ℚ) ^ (-(fl53Pair num2 den2).2).toNat)⁻¹
          = ((fl53Pair num2 den2).1 : ℚ) / 2 ^ (-(fl53Pair num2 den2).2).toNat := by
        ring
      rw [hinv]
      exact hmk
  set P : ℚ := (((if 0 ≤ (fl53Pair num2 den2).2
      then (fl53Pair num2 den2).1 * 2 ^ (fl53Pair num2 den2).2.toNat
      else (2 * (fl53Pair num2 den2).1 + 2 ^ (-(fl53Pair num2 den2).2).toNat)
        / 2 ^ ((-(fl53Pair num2 den2).2).toNat + 1) : ℕ) : ℚ)) with hPdef
  have htri : |P - 100 * q|
      ≤ |P - flVal (fl53Pair num2 den2)|
        + |flVal (fl53Pair num2 den2) - 100 * flVal (fl53Pair v t)|
        + |100 * flVal (fl53Pair v t) - 100 * q| := by
    have t1 := abs_sub_le P (flVal (fl53Pair num2 den2)) (100 * q)
    have t2 := abs_sub_le (flVal (fl53Pair num2 den2)) (100 * flVal (fl53Pair v t)) (100 * q)
    linarith
  have h100 : |100 * flVal (fl53Pair v t) - 100 * q|
      = 100 * |flVal (fl53Pair v t) - q| := by
    rw [← mul_sub, abs_mul]
    norm_num
  have hb2 : |flVal (fl53Pair num2 den2) - 100 * flVal (fl53Pair v t)|
      ≤ 100 * (q + q / 2 ^ 53) / 2 ^ 53 := by
    refine le_trans hE2 ?_
    linarith [hA1]
  have hbound : (1 : ℚ) / 2 + 100 * (q + q / 2 ^ 53) / 2 ^ 53 + 100 * (q / 2 ^ 53)
      ≤ 1 / 2 + 100 * q / 2 ^ 51 := by
    linarith [hq0]
  calc |P - 100 * q|
      ≤ |P - flVal (fl53Pair num2 den2)|
        + |flVal (fl53Pair num2 den2) - 100 * flVal (fl53Pair v t)|
        + |100 * flVal (fl53Pair v t) - 100 * q| := htri
  _ ≤ 1 / 2 + 100 * (q + q / 2 ^ 53) / 2 ^ 53 + 100 * (q / 2 ^ 53) := by
      rw [h100]
      have hsc := mul_le_mul_of_nonneg_left hE1 (by norm_num : (0 : ℚ) ≤ 100)
      linarith [hfinal, hb2]
  _ ≤ 1 / 2 + 100 * q / 2 ^ 51 := hbound

/-- Claim C2 counterexample: the second revision of src/src/NotionChart.tsx
(lines 453-458) has no `total > 0` guard and displays `"NaN"` at zero
total; and for value 23, total 40 binary64 computes `(23/40)*100 =
57.49999999999999`, so both revisions display 57 while the claim's
`round(100*value/total)` is 58. -/
theorem percent_zero_total_nan_cex :
    (percentStringR2 0 0 = "NaN" ∧ percentStringR2 0 0 ≠ "0") ∧
    percentDisplay 23 40 = 57 ∧
    (percentDisplay 23 40 : ℤ) ≠ round ((100 * (23 : ℚ)) / (40 : ℚ)) := by
  refine ⟨⟨by decide, by decide⟩, by decide, ?_⟩
  have h57 : percentDisplay 23 40 = 57 := by decide
  have h58 : round ((100 * (23 : ℚ)) / (40 : ℚ)) = 58 := by norm_num [round_eq]
  rw [h57, h58]
  decide

/-- Claim C2 (amended): the displayed total is the sum of the chart's
data-point values (integer sums are exact in binary64).  For positive
totals both revisions display `Math.round((value/total)*100)` evaluated
in binary64 (the `toFixed(0)` of the second revision agrees with
`Math.round` on non-negative values); this approximates the exact
percentage to within `1/2 + (100*value/total)/2^51` — so it is almost
always `round(100*value/total)` and always within one of it — and equals
it in the claim's scenario (total 4: Done 75%, Not started 25%), but can
differ: at value 23, total 40 the program displays 57 while the exact
rounding is 58.  At zero total `SortableBase` displays 0 for every point;
the unguarded second revision displays `"NaN"` (see the counterexample). -/
theorem chart_total_percent :
    (∀ data : List ChartDataPoint, chartTotal data = (data.map (fun d => d.value)).sum) ∧
    (∀ v : ℕ, percentDisplay v 0 = 0) ∧
    (∀ v t : ℕ, 0 < t → percentStringR2 v t = toString (percentDisplay v t)) ∧
    (∀ v t : ℕ, 1 ≤ v → 1 ≤ t →
      |((percentDisplay v t : ℚ)) - 100 * (v : ℚ) / t| ≤ 1 / 2 + 100 * (v : ℚ) / t / 2 ^ 51) ∧
    chartTotal projA.data = 4 ∧ percentDisplay 3 4 = 75 ∧ percentDisplay 1 4 = 25 ∧
    percentDisplay 23 40 = 57 := by
  refine ⟨chartTotal_eq_sum, fun v => rfl, ?_, ?_, by decide, by decide, by decide, by decide⟩
  · intro v t ht
    simp [percentStringR2, percentDisplay, ht]
  · intro v t hv ht
    have h := percentFloat_err v t hv ht
    rw [percentDisplay, if_pos (by omega : 0 < t)]
    exact h

/-- Claim C2 witness: the zero-guard, the string/number agreement, and
the binary64 error bound applied at concrete inputs. -/
theorem chart_total_percent_witness :
    0 < 4 ∧ percentStringR2 3 4 = toString (percentDisplay 3 4) ∧
    (1 : ℕ) ≤ 23 ∧ (1 : ℕ) ≤ 40 ∧
    |((percentDisplay 23 40 : ℚ)) - 100 * ((23 : ℕ) : ℚ) / ((40 : ℕ) : ℚ)|
      ≤ 1 / 2 + 100 * ((23 : ℕ) : ℚ) / ((40 : ℕ) : ℚ) / 2 ^ 51 :=
  ⟨by decide, chart_total_percent.2.2.1 3 4 (by decide), by decide, by decide,
   chart_total_percent.2.2.2.1 23 40 (by decide) (by decide)⟩

/-- Claim C6: a fetch that fails (endpoint unset, network rejection,
non-2xx HTTP status, or unparsable body) leaves both the snapshot and the
`lastUpdated` timestamp unchanged, and the error is caught and logged
rather than propagated (the transition is total and reports the log). -/
theorem fetch_error_atomic (st : FetchState) (now : Nat) (out : FetchOutcome)
    (h : fetchFails out = true) :
    (fetchDataStep st now out).1.charts = st.charts ∧
    (fetchDataStep st now out).1.lastUpdated = st.lastUpdated ∧
    (fetchDataStep st now out).2 = true := by
  cases out with
  | noUrl => exact ⟨rfl, rfl, rfl⟩
  | netError => exact ⟨rfl, rfl, rfl⟩
  | response status body =>
    simp only [fetchFails, Bool.or_eq_true, Bool.not_eq_true'] at h
    rcases h with hs | hb
    · simp [fetchDataStep, hs]
    · have hbn : body = none := Option.isNone_iff_eq_none.mp hb
      subst hbn
      simp [fetchDataStep]

/-- Claim C6 witness: an HTTP 500 response leaves a concrete prior state's
snapshot and timestamp untouched and logs the failure. -/
theorem fetch_error_atomic_witness :
    fetchFails (.response 500 (some (some []))) = true ∧
    (fetchDataStep ⟨[projA], some 5, false, ["Proj"]⟩ 9 (.response 500 (some (some [])))).1.charts
      = [projA] ∧
    (fetchDataStep ⟨[projA], some 5, false, ["Proj"]⟩ 9 (.response 500 (some (some [])))).1.lastUpdated
      = some 5 ∧
    (fetchDataStep ⟨[projA], some 5, false, ["Proj"]⟩ 9 (.response 500 (some (some [])))).2 = true :=
  ⟨by decide,
   (fetch_error_atomic ⟨[projA], some 5, false, ["Proj"]⟩ 9 (.response 500 (some (some []))) (by decide)).1,
   (fetch_error_atomic ⟨[projA], some 5, false, ["Proj"]⟩ 9 (.response 500 (some (some []))) (by decide)).2.1,
   (fetch_error_atomic ⟨[projA], some 5, false, ["Proj"]⟩ 9 (.response 500 (some (some []))) (by decide)).2.2⟩

/-- Claim C7: the reconnect delay doubles per attempt up to the 30s
ceiling and never exceeds it; three consecutive closures schedule delays
of 2s, 4s and 8s; after the 8-attempt budget is spent no further reconnect
is scheduled (a run of 20 closures schedules only 8 delays) and the
channel state is reported as disconnected. -/
theorem reconnect_backoff :
    (∀ n, backoffDelay n ≤ 30000) ∧
    (∀ n, backoffDelay (n + 1) = min (2 * backoffDelay n) 30000) ∧
    closureDelays 3 ⟨0, none, .connected⟩ = [2000, 4000, 8000] ∧
    (closureDelays 20 ⟨0, none, .connected⟩).length = 8 ∧
    (∀ st : WsState, MAX_RECONNECT_ATTEMPTS ≤ st.reconnectAttempts →
      (scheduleReconnect none st).pendingDelay = none ∧
      (scheduleReconnect none st).wsStatus = .disconnected ∧
      (scheduleReconnect none st).reconnectAttempts = st.reconnectAttempts) := by
  refine ⟨fun n => min_le_right _ _, ?_, by decide, by decide, ?_⟩
  · intro n
    have h2 : 1000 * 2 ^ (n + 1) = 2 * (1000 * 2 ^ n) := by ring
    rw [backoffDelay, backoffDelay, h2]
    omega
  · intro st hn
    have hc : MAX_RECONNECT_ATTEMPTS < st.reconnectAttempts + 1 := Nat.lt_succ_of_le hn
    simp [scheduleReconnect, hc]

/-- Claim C7 witness: a state that has exhausted the reconnect budget. -/
theorem reconnect_backoff_witness :
    MAX_RECONNECT_ATTEMPTS ≤ (8 : Nat) ∧
    (scheduleReconnect none ⟨8, some 30000, .connecting⟩).pendingDelay = none ∧
    (scheduleReconnect none ⟨8, some 30000, .connecting⟩).wsStatus = .disconnected :=
  ⟨by decide,
   (reconnect_backoff.2.2.2.2 ⟨8, some 30000, .connecting⟩ (by decide)).1,
   (reconnect_backoff.2.2.2.2 ⟨8, some 30000, .connecting⟩ (by decide)).2.1⟩

/-- Claim C8 counterexample: a base discovered in the snapshot after the
order state was initialized is not appended — with prior order `["A"]` and
a snapshot containing bases `A` and `B`, the displayed bases under the
"all" selection omit `B` (it is silently hidden). -/
theorem new_base_hidden_cex :
    "B" ∈ uniqueBases [⟨"A::x", some 1, []⟩, ⟨"B::y", some 1, []⟩] ∧
    "B" ∉ displayedBases
        (updateOrderedBases ["A"] (uniqueBases [⟨"A::x", some 1, []⟩, ⟨"B::y", some 1, []⟩]))
        ["all"] := by
  constructor
  · decide
  · decide

/-- Claim C8 (amended): the displayed bases follow the order state
(`displayedBases` and the order update are sublists of it), and any base
of the order state no longer present in the snapshot is dropped — but a
base discovered in the snapshot and absent from a non-empty order state is
never appended (membership in the updated order requires prior
membership), so a newly-appearing base stays hidden. -/
theorem order_state_no_append :
    (∀ prev bases, prev ≠ [] → (updateOrderedBases prev bases).Sublist prev) ∧
    (∀ prev bases b, prev ≠ [] →
      (b ∈ updateOrderedBases prev bases ↔ b ∈ prev ∧ b ∈ bases)) ∧
    (∀ ord sel, (displayedBases ord sel).Sublist ord) ∧
    (∀ ord sel b, b ∈ displayedBases ord sel ↔ b ∈ ord ∧ ("all" ∈ sel ∨ b ∈ sel)) := by
  have hlen : ∀ prev : List String, prev ≠ [] → prev.length ≠ 0 := by
    intro prev hp h0
    exact hp (List.length_eq_zero.mp h0)
  refine ⟨?_, ?_, ?_, ?_⟩
  · intro prev bases hp
    rw [updateOrderedBases, if_pos (hlen prev hp)]
    exact List.filter_sublist prev
  · intro prev bases b hp
    rw [updateOrderedBases, if_pos (hlen prev hp)]
    simp [List.mem_filter, List.elem_iff]
  · intro ord sel
    exact List.filter_sublist ord
  · intro ord sel b
    simp [displayedBases, List.mem_filter, List.elem_iff]

/-- Claim C8 witness: the order-update properties at prior order `["A"]`
and discovered bases `["A", "B"]`. -/
theorem order_state_no_append_witness :
    (["A"] : List String) ≠ [] ∧
    (updateOrderedBases ["A"] ["A", "B"]).Sublist ["A"] ∧
    ("B" ∈ updateOrderedBases ["A"] ["A", "B"] ↔ "B" ∈ ["A"] ∧ "B" ∈ ["A", "B"]) :=
  ⟨by decide, order_state_no_append.1 ["A"] ["A", "B"] (by decide),
   order_state_no_append.2.1 ["A"] ["A", "B"] "B" (by decide)⟩

theorem splitColons_ne_nil (cs : List Char) : splitColons cs ≠ [] := by
  induction cs using splitColons.induct <;> simp_all [splitColons]

theorem splitColons_no_sep (cs : List Char) (h : hasSep cs = false) :
    splitColons cs = [cs] := by
  induction cs using splitColons.induct <;> simp_all [splitColons, hasSep]

theorem pushGroup_mem_self (G : List (String × List ChartItem)) (b : String) (c : ChartItem) :
    ∃ g, (b, g) ∈ pushGroup G b c ∧ c ∈ g := by
  induction G with
  | nil => exact ⟨[c], List.mem_singleton.mpr rfl, List.mem_singleton.mpr rfl⟩
  | cons p rest ih =>
    by_cases hb : p.1 = b
    · refine ⟨p.2 ++ [c], ?_, by simp⟩
      rw [show p = (p.1, p.2) from rfl, pushGroup, if_pos hb, hb]
      exact List.mem_cons_self _ _
    · obtain ⟨g, hg, hcg⟩ := ih
      refine ⟨g, ?_, hcg⟩
      rw [show p = (p.1, p.2) from rfl, pushGroup, if_neg hb]
      exact List.mem_cons_of_mem _ hg

theorem pushGroup_mem_mono (G : List (String × List ChartItem)) (b : String)
    (g : List ChartItem) (c' : ChartItem) (b2 : String) (c2 : ChartItem)
    (hg : (b, g) ∈ G) (hc : c' ∈ g) :
    ∃ g2, (b, g2) ∈ pushGroup G b2 c2 ∧ c' ∈ g2 := by
  induction G with
  | nil => cases hg
  | cons p rest ih =>
    by_cases hb : p.1 = b2
    · rw [show p = (p.1, p.2) from rfl, pushGroup, if_pos hb]
      rcases List.mem_cons.mp hg with he | ht
      · refine ⟨p.2 ++ [c2], ?_, ?_⟩
        · have : b = p.1 := by rw [← he]
          rw [this]
          exact List.mem_cons_self _ _
        · have : g = p.2 := by rw [← he]
          exact List.mem_append_left _ (this ▸ hc)
      · exact ⟨g, List.mem_cons_of_mem _ ht, hc⟩
    · rw [show p = (p.1, p.2) from rfl, pushGroup, if_neg hb]
      rcases List.mem_cons.mp hg with he | ht
      · exact ⟨g, he ▸ List.mem_cons_self _ _, hc⟩
      · obtain ⟨g2, hg2, hc2⟩ := ih ht
        exact ⟨g2, List.mem_cons_of_mem _ hg2, hc2⟩

theorem groupFold_mem (l : List ChartItem) :
    ∀ (G : List (String × List ChartItem)) (c : ChartItem),
      (c ∈ l ∨ ∃ g, (baseOf c, g) ∈ G ∧ c ∈ g) →
      ∃ g, (baseOf c, g) ∈ l.foldl (fun g c => pushGroup g (baseOf c) c) G ∧ c ∈ g := by
  induction l with
  | nil =>
    intro G c h
    rcases h with h | h
    · cases h
    · exact h
  | cons a rest ih =>
    intro G c h
    rw [List.foldl_cons]
    apply ih
    rcases h with h | ⟨g, hg, hcg⟩
    · rcases List.mem_cons.mp h with he | ht
      · subst he
        exact Or.inr (pushGroup_mem_self G (baseOf c) c)
      · exact Or.inl ht
    · exact Or.inr (pushGroup_mem_mono G (baseOf c) g c (baseOf a) a hg hcg)

/-- Claim C9 counterexample: a ChartItem whose title lacks the `::`
separator is grouped under its full title as the base name (JS
`split('::')[0]` is the whole string), not under an unnamed base. -/
theorem missing_sep_base_cex :
    baseOf ⟨"Standalone", some 1, []⟩ = "Standalone" ∧
    ("Standalone" : String) ≠ "" ∧
    groupByBase [⟨"Standalone", some 1, []⟩]
      = [("Standalone", [⟨"Standalone", some 1, []⟩])] := by
  refine ⟨by decide, by decide, by decide⟩

/-- Claim C9 (amended): a ChartItem whose title lacks the `::` separator
is neither dropped nor a crash: its base name is its full title (not an
unnamed base), it stays a member of the group keyed by that full title,
and its displayed chart name falls back to `Slot <slot>`. -/
theorem missing_sep_graceful (t : String) (s : Option Int) (d : List ChartDataPoint)
    (hsep : hasSep t.data = false) :
    baseOf ⟨t, s, d⟩ = t ∧
    (∀ sl : Int, chartName t sl = "Slot " ++ toString sl) ∧
    (∀ l : List ChartItem, (⟨t, s, d⟩ : ChartItem) ∈ l →
      ∃ g, (t, g) ∈ sortGroupCharts (groupByBase l) ∧ (⟨t, s, d⟩ : ChartItem) ∈ g) := by
  have hsplit : splitColons t.data = [t.data] := splitColons_no_sep t.data hsep
  have hparts : titleParts t = [t] := by
    rw [titleParts, hsplit]
    rfl
  have hbase : baseOf ⟨t, s, d⟩ = t := by
    rw [baseOf, hparts]
    rfl
  refine ⟨hbase, ?_, ?_⟩
  · intro sl
    rw [chartName, hparts]
    rfl
  · intro l hl
    obtain ⟨g, hg, hcg⟩ := groupFold_mem l [] ⟨t, s, d⟩ (Or.inl hl)
    rw [hbase] at hg
    refine ⟨List.insertionSort (fun a b => a.slot.getD 0 ≤ b.slot.getD 0) g, ?_, ?_⟩
    · rw [sortGroupCharts]
      exact List.mem_map.mpr ⟨(t, g), hg, rfl⟩
    · exact (List.perm_insertionSort _ g).mem_iff.mpr hcg

/-- Claim C9 witness: the graceful degradation at the concrete title
`"Standalone"`. -/
theorem missing_sep_graceful_witness :
    hasSep ("Standalone" : String).data = false ∧
    baseOf ⟨"Standalone", some 1, []⟩ = "Standalone" :=
  ⟨by decide, (missing_sep_graceful "Standalone" (some 1) [] (by decide)).1⟩

theorem applyItem_frame (C : ChangesMap) (c : ChartItem) :
    (applyItem C c).title = c.title ∧ (applyItem C c).slot = c.slot ∧
    (applyItem C c).data.length = c.data.length ∧
    ∀ j d, c.data.get? j = some d →
      ∃ d', (applyItem C c).data.get? j = some d' ∧ d'.label = d.label ∧
        (C.lookup c.title = none → d' = d) ∧
        (∀ m, C.lookup c.title = some m →
          (m.lookup d.label = none → d' = d) ∧
          (∀ v, m.lookup d.label = some v → d'.value = v)) := by
  cases hm : C.lookup c.title with
  | none =>
    have he : applyItem C c = c := by rw [applyItem, hm]
    rw [he]
    refine ⟨rfl, rfl, rfl, ?_⟩
    intro j d hd
    exact ⟨d, hd, rfl, fun _ => rfl, fun m hm2 => Option.noConfusion hm2⟩
  | some m =>
    have he : applyItem C c = { c with data := c.data.map (fun d =>
        match m.lookup d.label with
        | none => d
        | some v => { label := d.label, value := v }) } := by
      rw [applyItem, hm]
    rw [he]
    refine ⟨rfl, rfl, by simp, ?_⟩
    intro j d hd
    refine ⟨match m.lookup d.label with
            | none => d
            | some v => { label := d.label, value := v }, ?_, ?_, ?_, ?_⟩
    · simp only [List.get?_map, hd]
      rfl
    · cases hl : m.lookup d.label <;> simp [hl]
    · intro hnone
      exact Option.noConfusion hnone
    · intro m2 hm2
      have hmm : m = m2 := Option.some.inj hm2
      subst hmm
      constructor
      · intro hl
        simp [hl]
      · intro v hl
        simp [hl]

/-- Claim C3: `applyDiff` preserves the number and order of ChartItems,
every item's title and slot, and the number, order and labels of every
item's data points; a point's value becomes the supplied number exactly
when its item title is a key of the changes map and its label a key of the
inner map, and is unchanged otherwise. -/
theorem applyDiff_frame (S : List ChartItem) (C : ChangesMap) :
    (updateChartsByChanges S C).length = S.length ∧
    (∀ i c, S.get? i = some c →
      ∃ c', (updateChartsByChanges S C).get? i = some c' ∧
        c'.title = c.title ∧ c'.slot = c.slot ∧
        c'.data.length = c.data.length ∧
        ∀ j d, c.data.get? j = some d →
          ∃ d', c'.data.get? j = some d' ∧ d'.label = d.label ∧
            (C.lookup c.title = none → d' = d) ∧
            (∀ m, C.lookup c.title = some m →
              (m.lookup d.label = none → d' = d) ∧
              (∀ v, m.lookup d.label = some v → d'.value = v))) := by
  constructor
  · simp [updateChartsByChanges]
  · intro i c hc
    obtain ⟨h1, h2, h3, h4⟩ := applyItem_frame C c
    refine ⟨applyItem C c, ?_, h1, h2, h3, h4⟩
    rw [updateChartsByChanges, List.get?_map, hc]
    rfl

/-- Claim C3 witness: the frame conclusion instantiated at a one-item
snapshot and a one-entry changes map. -/
theorem applyDiff_frame_witness :
    ∃ c', (updateChartsByChanges [⟨"T::a", some 1, [⟨"Done", 3⟩]⟩]
              [("T::a", [("Done", 9)])]).get? 0 = some c' ∧
      c'.title = (⟨"T::a", some 1, [⟨"Done", 3⟩]⟩ : ChartItem).title ∧
      c'.slot = (⟨"T::a", some 1, [⟨"Done", 3⟩]⟩ : ChartItem).slot ∧
      c'.data.length = (⟨"T::a", some 1, [⟨"Done", 3⟩]⟩ : ChartItem).data.length ∧
      ∀ j d, (⟨"T::a", some 1, [⟨"Done", 3⟩]⟩ : ChartItem).data.get? j = some d →
        ∃ d', c'.data.get? j = some d' ∧ d'.label = d.label ∧
          (([("T::a", [("Done", 9)])] : ChangesMap).lookup
              (⟨"T::a", some 1, [⟨"Done", 3⟩]⟩ : ChartItem).title = none → d' = d) ∧
          (∀ m, ([("T::a", [("Done", 9)])] : ChangesMap).lookup
              (⟨"T::a", some 1, [⟨"Done", 3⟩]⟩ : ChartItem).title = some m →
            (m.lookup d.label = none → d' = d) ∧
            (∀ v, m.lookup d.label = some v → d'.value = v)) :=
  (applyDiff_frame [⟨"T::a", some 1, [⟨"Done", 3⟩]⟩] [("T::a", [("Done", 9)])]).2
    0 ⟨"T::a", some 1, [⟨"Done", 3⟩]⟩ rfl

theorem map_id_of_mem {α : Type} (l : List α) (f : α → α) (h : ∀ a ∈ l, f a = a) :
    l.map f = l := by
  induction l with
  | nil => rfl
  | cons a rest ih =>
    rw [List.map_cons, h a (List.mem_cons_self a rest),
        ih (fun x hx => h x (List.mem_cons_of_mem a hx))]

theorem lookup_inverseChanges (S : List ChartItem) (C : ChangesMap) (t : String) :
    (inverseChanges S C).lookup t
      = (C.lookup t).map (fun m => m.map (fun lv => (lv.1, origValue S t lv.1))) := by
  induction C with
  | nil => rfl
  | cons p rest ih =>
    cases hbeq : (t == p.1) with
    | true =>
      have ht : t = p.1 := eq_of_beq hbeq
      subst ht
      simp [inverseChanges, List.lookup]
    | false =>
      rw [inverseChanges, List.map_cons]
      rw [List.lookup, List.lookup, hbeq]
      exact ih

theorem lookup_map_orig (m : LabelChanges) (g : String → Nat) (lab : String) :
    (m.map (fun lv => (lv.1, g lv.1))).lookup lab
      = (m.lookup lab).map (fun _ => g lab) := by
  induction m with
  | nil => rfl
  | cons q rest ih =>
    cases hbeq : (lab == q.1) with
    | true =>
      have hl : lab = q.1 := eq_of_beq hbeq
      subst hl
      rw [List.map_cons, List.lookup, List.lookup, hbeq]
      rfl
    | false =>
      rw [List.map_cons, List.lookup, List.lookup, hbeq]
      exact ih

theorem find_key_self {α : Type} (key : α → String) (l : List α) (a : α) (ha : a ∈ l)
    (hN : (l.map key).Nodup) : l.find? (fun x => key x == key a) = some a := by
  induction l with
  | nil => cases ha
  | cons b rest ih =>
    rw [List.map_cons, List.nodup_cons] at hN
    rcases List.mem_cons.mp ha with he | ht
    · subst he
      rw [List.find?]
      simp
    · have hne : key b ≠ key a := by
        intro he
        exact hN.1 (he ▸ List.mem_map.mpr ⟨a, ht, rfl⟩)
      have hbeq : (key b == key a) = false := beq_eq_false_iff_ne.mpr hne
      rw [List.find?, hbeq]
      exact ih ht hN.2

theorem applyItem_roundtrip (S : List ChartItem) (C : ChangesMap) (c : ChartItem)
    (hc : c ∈ S) (hT : (S.map (fun x => x.title)).Nodup)
    (hLc : (c.data.map (fun d => d.label)).Nodup) :
    applyItem (inverseChanges S C) (applyItem C c) = c := by
  cases hm : C.lookup c.title with
  | none =>
    have h1 : applyItem C c = c := by rw [applyItem, hm]
    rw [h1, applyItem, lookup_inverseChanges, hm]
    rfl
  | some m =>
    have h1 : applyItem C c = { c with data := c.data.map (fun d =>
        match m.lookup d.label with
        | none => d
        | some v => { label := d.label, value := v }) } := by
      rw [applyItem, hm]
    have hli : (inverseChanges S C).lookup c.title
        = some (m.map (fun lv => (lv.1, origValue S c.title lv.1))) := by
      rw [lookup_inverseChanges, hm]
      rfl
    rw [h1, applyItem]
    dsimp only
    rw [hli]
    dsimp only
    rw [List.map_map]
    have hdd : c.data.map ((fun d : ChartDataPoint =>
        match (m.map (fun lv => (lv.1, origValue S c.title lv.1))).lookup d.label with
        | none => d
        | some v => { label := d.label, value := v }) ∘ (fun d : ChartDataPoint =>
        match m.lookup d.label with
        | none => d
        | some v => { label := d.label, value := v })) = c.data := by
      apply map_id_of_mem
      intro d hd
      simp only [Function.comp_apply]
      cases hl : m.lookup d.label with
      | none =>
        simp only [hl, lookup_map_orig, Option.map_none']
      | some v =>
        have horig : origValue S c.title d.label = d.value := by
          have hfind1 : S.find? (fun x => x.title == c.title) = some c :=
            find_key_self (fun x => x.title) S c hc hT
          have hfind2 : c.data.find? (fun x => x.label == d.label) = some d :=
            find_key_self (fun x => x.label) c.data d hd hLc
          simp [origValue, hfind1, hfind2]
        simp only [hl, lookup_map_orig, Option.map_some']
        rw [horig]
    rw [hdd]

/-- Claim C4: for a snapshot with pairwise-distinct chart titles and
pairwise-distinct labels within each chart (the claim's "its original
value" presupposes this) and a changes map referencing only titles and
labels present in the snapshot, applying the diff and then the inverse
changes map restores the snapshot exactly. -/
theorem applyDiff_roundtrip (S : List ChartItem) (C : ChangesMap)
    (hT : (S.map (fun x => x.title)).Nodup)
    (hL : ∀ c ∈ S, (c.data.map (fun d => d.label)).Nodup)
    (hC : ∀ p ∈ C, ∃ c ∈ S, c.title = p.1 ∧ ∀ q ∈ p.2, ∃ d ∈ c.data, d.label = q.1) :
    updateChartsByChanges (updateChartsByChanges S C) (inverseChanges S C) = S := by
  rw [updateChartsByChanges, updateChartsByChanges, List.map_map]
  apply map_id_of_mem
  intro c hcS
  exact applyItem_roundtrip S C c hcS hT (hL c hcS)

/-- Claim C4 witness: the round trip at a concrete snapshot and changes
map. -/
theorem applyDiff_roundtrip_witness :
    updateChartsByChanges
        (updateChartsByChanges [⟨"T::a", some 1, [⟨"Done", 3⟩, ⟨"Await", 1⟩]⟩]
          [("T::a", [("Done", 9)])])
        (inverseChanges [⟨"T::a", some 1, [⟨"Done", 3⟩, ⟨"Await", 1⟩]⟩]
          [("T::a", [("Done", 9)])])
      = [⟨"T::a", some 1, [⟨"Done", 3⟩, ⟨"Await", 1⟩]⟩] :=
  applyDiff_roundtrip _ _ (by decide) (by decide) (by decide)

theorem setParentBG_ok (bg : BaseGroup) (s : Int) (c : ChartItem)
    (hbg : ∀ q ∈ bg, (q.2 : Bucket).parent.slot = some q.1) (hc : c.slot = some s) :
    ∀ q ∈ setParentBG bg s c, (q.2 : Bucket).parent.slot = some q.1 := by
  induction bg with
  | nil =>
    intro q hq
    rcases List.mem_singleton.mp hq with rfl
    exact hc
  | cons e rest ih =>
    obtain ⟨s', bk⟩ := e
    by_cases hs : s' = s
    · rw [setParentBG, if_pos hs]
      intro q hq
      rcases List.mem_cons.mp hq with rfl | ht
      · simpa [hs] using hc
      · exact hbg q (List.mem_cons_of_mem _ ht)
    · rw [setParentBG, if_neg hs]
      intro q hq
      rcases List.mem_cons.mp hq with rfl | ht
      · exact hbg _ (List.mem_cons_self _ _)
      · exact ih (fun q hq => hbg q (List.mem_cons_of_mem _ hq)) q ht

theorem addParentG_ok (g : Grouped) (c : ChartItem) (hg : ParentsOK g) :
    ParentsOK (addParentG g c) := by
  induction g with
  | nil =>
    cases hsl : c.slot with
    | none =>
      intro p hp
      rw [addParentG, hsl] at hp
      rcases List.mem_singleton.mp hp with rfl
      intro q hq
      cases hq
    | some s =>
      intro p hp
      rw [addParentG, hsl] at hp
      rcases List.mem_singleton.mp hp with rfl
      intro q hq
      rcases List.mem_singleton.mp hq with rfl
      exact hsl
  | cons e rest ih =>
    obtain ⟨b, bg⟩ := e
    by_cases hb : b = baseOf c
    · cases hsl : c.slot with
      | none =>
        rw [addParentG, if_pos hb, hsl]
        exact hg
      | some s =>
        rw [addParentG, if_pos hb, hsl]
        intro p hp
        rcases List.mem_cons.mp hp with rfl | ht
        · exact setParentBG_ok bg s c (fun q hq => hg _ (List.mem_cons_self _ _) q hq) hsl
        · exact hg p (List.mem_cons_of_mem _ ht)
    · rw [addParentG, if_neg hb]
      intro p hp
      rcases List.mem_cons.mp hp with rfl | ht
      · exact hg _ (List.mem_cons_self _ _)
      · exact ih (fun p hp => hg p (List.mem_cons_of_mem _ hp)) p ht

theorem foldl_addParentG_ok (l : List ChartItem) :
    ∀ g : Grouped, ParentsOK g → ParentsOK (l.foldl addParentG g) := by
  induction l with
  | nil => exact fun g hg => hg
  | cons a rest ih =>
    intro g hg
    rw [List.foldl_cons]
    exact ih (addParentG g a) (addParentG_ok g a hg)

theorem pushSubBG_ok (bg : BaseGroup) (s : Int) (c : ChartItem)
    (hbg : ∀ q ∈ bg, (q.2 : Bucket).parent.slot = some q.1) :
    ∀ q ∈ pushSubBG bg s c, (q.2 : Bucket).parent.slot = some q.1 := by
  induction bg with
  | nil => intro q hq; cases hq
  | cons e rest ih =>
    obtain ⟨s', bk⟩ := e
    by_cases hs : s' = s
    · rw [pushSubBG, if_pos hs]
      intro q hq
      rcases List.mem_cons.mp hq with rfl | ht
      · show bk.parent.slot = some s'
        exact hbg (s', bk) (List.mem_cons_self _ _)
      · exact hbg q (List.mem_cons_of_mem _ ht)
    · rw [pushSubBG, if_neg hs]
      intro q hq
      rcases List.mem_cons.mp hq with rfl | ht
      · exact hbg _ (List.mem_cons_self _ _)
      · exact ih (fun q hq => hbg q (List.mem_cons_of_mem _ hq)) q ht

theorem pushSub_ok (g : Grouped) (b : String) (s : Int) (c : ChartItem) (hg : ParentsOK g) :
    ParentsOK (pushSub g b s c) := by
  induction g with
  | nil => intro p hp; cases hp
  | cons e rest ih =>
    obtain ⟨b', bg⟩ := e
    by_cases hb : b' = b
    · rw [pushSub, if_pos hb]
      intro p hp
      rcases List.mem_cons.mp hp with rfl | ht
      · exact pushSubBG_ok bg s c (fun q hq => hg _ (List.mem_cons_self _ _) q hq)
      · exact hg p (List.mem_cons_of_mem _ ht)
    · rw [pushSub, if_neg hb]
      intro p hp
      rcases List.mem_cons.mp hp with rfl | ht
      · exact hg _ (List.mem_cons_self _ _)
      · exact ih (fun p hp => hg p (List.mem_cons_of_mem _ hp)) p ht

theorem subtaskStep_ok (l : List ChartItem) (g : Grouped) (i : Nat) (c : ChartItem)
    (hg : ParentsOK g) : ParentsOK (subtaskStep l g i c) := by
  rw [subtaskStep]
  cases c.slot with
  | some s => exact hg
  | none =>
    cases findPrevParent ((l.take i).reverse) (baseOf c) with
    | none => exact hg
    | some sp => exact pushSub_ok g (baseOf c) sp.1 c hg

theorem subtasksGo_ok (l : List ChartItem) :
    ∀ (rest : List ChartItem) (g : Grouped) (i : Nat), ParentsOK g →
      ParentsOK (subtasksGo l g i rest) := by
  intro rest
  induction rest with
  | nil => intro g i hg; exact hg
  | cons a rest2 ih =>
    intro g i hg
    rw [subtasksGo]
    exact ih (subtaskStep l g i a) (i + 1) (subtaskStep_ok l g i a hg)

theorem groupedP1_ok (l : List ChartItem) : ParentsOK (groupedP1 l) :=
  subtasksGo_ok l l (parentsPass l) 0
    (foldl_addParentG_ok l [] (fun p hp => by cases hp))

theorem setParentBG_hasKey_self (bg : BaseGroup) (s : Int) (c : ChartItem) :
    ∃ q ∈ setParentBG bg s c, (q : Int × Bucket).1 = s := by
  induction bg with
  | nil => exact ⟨(s, ⟨c, []⟩), List.mem_singleton.mpr rfl, rfl⟩
  | cons e rest ih =>
    obtain ⟨s2, bk⟩ := e
    by_cases hs : s2 = s
    · rw [setParentBG, if_pos hs]
      exact ⟨(s2, ⟨c, []⟩), List.mem_cons_self _ _, hs⟩
    · rw [setParentBG, if_neg hs]
      obtain ⟨q, hq, hq1⟩ := ih
      exact ⟨q, List.mem_cons_of_mem _ hq, hq1⟩

theorem setParentBG_hasKey_mono (bg : BaseGroup) (s s2 : Int) (c : ChartItem)
    (h : ∃ q ∈ bg, (q : Int × Bucket).1 = s) :
    ∃ q ∈ setParentBG bg s2 c, (q : Int × Bucket).1 = s := by
  induction bg with
  | nil =>
    obtain ⟨q, hq, _⟩ := h
    cases hq
  | cons e rest ih =>
    obtain ⟨s3, bk⟩ := e
    by_cases hs : s3 = s2
    · rw [setParentBG, if_pos hs]
      obtain ⟨q, hq, hq1⟩ := h
      rcases List.mem_cons.mp hq with rfl | ht
      · exact ⟨(s3, ⟨c, []⟩), List.mem_cons_self _ _, hq1⟩
      · exact ⟨q, List.mem_cons_of_mem _ ht, hq1⟩
    · rw [setParentBG, if_neg hs]
      obtain ⟨q, hq, hq1⟩ := h
      rcases List.mem_cons.mp hq with rfl | ht
      · exact ⟨(s3, bk), List.mem_cons_self _ _, hq1⟩
      · obtain ⟨q2, hq2, hq21⟩ := ih ⟨q, ht, hq1⟩
        exact ⟨q2, List.mem_cons_of_mem _ hq2, hq21⟩

theorem addParentG_hasKey_mono (g : Grouped) (c : ChartItem) (b : String) (s : Int)
    (h : HasKey g b s) : HasKey (addParentG g c) b s := by
  induction g with
  | nil =>
    obtain ⟨p, hp, _⟩ := h
    cases hp
  | cons e rest ih =>
    obtain ⟨b2, bg⟩ := e
    obtain ⟨p, hp, hp1, hp2⟩ := h
    by_cases hb : b2 = baseOf c
    · cases hsl : c.slot with
      | none =>
        rw [addParentG, if_pos hb, hsl]
        exact ⟨p, hp, hp1, hp2⟩
      | some s2 =>
        rw [addParentG, if_pos hb, hsl]
        rcases List.mem_cons.mp hp with rfl | ht
        · exact ⟨(b2, setParentBG bg s2 c), List.mem_cons_self _ _, hp1,
            setParentBG_hasKey_mono bg s s2 c hp2⟩
        · exact ⟨p, List.mem_cons_of_mem _ ht, hp1, hp2⟩
    · rw [addParentG, if_neg hb]
      rcases List.mem_cons.mp hp with rfl | ht
      · exact ⟨(b2, bg), List.mem_cons_self _ _, hp1, hp2⟩
      · obtain ⟨p2, h1, h2, h3⟩ := ih ⟨p, ht, hp1, hp2⟩
        exact ⟨p2, List.mem_cons_of_mem _ h1, h2, h3⟩

theorem addParentG_hasKey_self (g : Grouped) (c : ChartItem) (s : Int)
    (hsl : c.slot = some s) : HasKey (addParentG g c) (baseOf c) s := by
  induction g with
  | nil =>
    rw [addParentG, hsl]
    exact ⟨(baseOf c, [(s, ⟨c, []⟩)]), List.mem_singleton.mpr rfl, rfl,
      (s, ⟨c, []⟩), List.mem_singleton.mpr rfl, rfl⟩
  | cons e rest ih =>
    obtain ⟨b2, bg⟩ := e
    by_cases hb : b2 = baseOf c
    · rw [addParentG, if_pos hb, hsl]
      obtain ⟨q, hq, hq1⟩ := setParentBG_hasKey_self bg s c
      exact ⟨(b2, setParentBG bg s c), List.mem_cons_self _ _, hb, q, hq, hq1⟩
    · rw [addParentG, if_neg hb]
      obtain ⟨p, h1, h2, h3⟩ := ih
      exact ⟨p, List.mem_cons_of_mem _ h1, h2, h3⟩

theorem foldl_addParentG_hasKey_mono (l : List ChartItem) :
    ∀ (g : Grouped) (b : String) (s : Int), HasKey g b s →
      HasKey (l.foldl addParentG g) b s := by
  induction l with
  | nil => exact fun g b s h => h
  | cons a rest ih =>
    intro g b s h
    rw [List.foldl_cons]
    exact ih (addParentG g a) b s (addParentG_hasKey_mono g a b s h)

theorem parentsPass_hasKey (l : List ChartItem) :
    ∀ (g : Grouped) (c : ChartItem) (s : Int), c ∈ l → c.slot = some s →
      HasKey (l.foldl addParentG g) (baseOf c) s := by
  induction l with
  | nil => intro g c s hc; cases hc
  | cons a rest ih =>
    intro g c s hc hsl
    rw [List.foldl_cons]
    rcases List.mem_cons.mp hc with rfl | ht
    · exact foldl_addParentG_hasKey_mono rest (addParentG g c) (baseOf c) s
        (addParentG_hasKey_self g c s hsl)
    · exact ih (addParentG g a) c s ht hsl


theorem addParentG_keys (g : Grouped) (c : ChartItem) :
    (addParentG g c).map (fun p => p.1)
      = if (g.map (fun p => p.1)).contains (baseOf c) then g.map (fun p => p.1)
        else g.map (fun p => p.1) ++ [baseOf c] := by
  induction g with
  | nil =>
    cases hsl : c.slot with
    | none => simp [addParentG, hsl]
    | some s => simp [addParentG, hsl]
  | cons e rest ih =>
    obtain ⟨b2, bg⟩ := e
    by_cases hb : b2 = baseOf c
    · have hmem : baseOf c ∈ ((b2, bg) :: rest).map (fun p => p.1) := by
        rw [List.map_cons, ← hb]
        exact List.mem_cons_self _ _
      have hcont : (((b2, bg) :: rest).map (fun p => p.1)).contains (baseOf c) = true :=
        List.elem_iff.mpr hmem
      rw [if_pos hcont]
      cases hsl : c.slot with
      | none => rw [addParentG, if_pos hb, hsl]
      | some s => rw [addParentG, if_pos hb, hsl]; simp
    · have hne : (baseOf c == b2) = false :=
        beq_eq_false_iff_ne.mpr (fun he => hb he.symm)
      rw [addParentG, if_neg hb, List.map_cons, List.map_cons]
      have hcc : ((b2 :: rest.map (fun p => p.1)).contains (baseOf c))
          = ((rest.map (fun p => p.1)).contains (baseOf c)) := by
        simp [List.contains_cons, hne]
      rw [hcc, ih]
      by_cases hcont : ((rest.map (fun p => p.1)).contains (baseOf c)) = true
      · rw [if_pos hcont, if_pos hcont]
      · rw [if_neg hcont, if_neg hcont]
        simp

theorem addParentG_basesNodup (g : Grouped) (c : ChartItem) (hg : BasesNodup g) :
    BasesNodup (addParentG g c) := by
  rw [BasesNodup, addParentG_keys]
  by_cases hcont : (g.map (fun p => p.1)).contains (baseOf c)
  · rw [if_pos hcont]
    exact hg
  · rw [if_neg hcont]
    have hnm : baseOf c ∉ g.map (fun p => p.1) := fun hmem =>
      hcont (List.elem_iff.mpr hmem)
    rw [← List.concat_eq_append]
    exact List.Nodup.concat hnm hg

theorem parentsPass_basesNodup (l : List ChartItem) :
    ∀ g : Grouped, BasesNodup g → BasesNodup (l.foldl addParentG g) := by
  induction l with
  | nil => exact fun g hg => hg
  | cons a rest ih =>
    intro g hg
    rw [List.foldl_cons]
    exact ih (addParentG g a) (addParentG_basesNodup g a hg)

theorem pushSubBG_keys (bg : BaseGroup) (s : Int) (c : ChartItem) :
    (pushSubBG bg s c).map (fun q => q.1) = bg.map (fun q => q.1) := by
  induction bg with
  | nil => rfl
  | cons e rest ih =>
    obtain ⟨s2, bk⟩ := e
    by_cases hs : s2 = s
    · rw [pushSubBG, if_pos hs]
      simp
    · rw [pushSubBG, if_neg hs, List.map_cons, List.map_cons, ih]

theorem pushSub_keys (g : Grouped) (b : String) (s : Int) (c : ChartItem) :
    (pushSub g b s c).map (fun p => p.1) = g.map (fun p => p.1) := by
  induction g with
  | nil => rfl
  | cons e rest ih =>
    obtain ⟨b2, bg⟩ := e
    by_cases hb : b2 = b
    · rw [pushSub, if_pos hb]
      simp
    · rw [pushSub, if_neg hb, List.map_cons, List.map_cons, ih]

theorem pushSub_basesNodup (g : Grouped) (b : String) (s : Int) (c : ChartItem)
    (hg : BasesNodup g) : BasesNodup (pushSub g b s c) := by
  rw [BasesNodup, pushSub_keys]
  exact hg

theorem pushSubBG_hasKey_mono (bg : BaseGroup) (s s2 : Int) (c : ChartItem)
    (h : ∃ q ∈ bg, (q : Int × Bucket).1 = s) :
    ∃ q ∈ pushSubBG bg s2 c, (q : Int × Bucket).1 = s := by
  induction bg with
  | nil =>
    obtain ⟨q, hq, _⟩ := h
    cases hq
  | cons e rest ih =>
    obtain ⟨s3, bk⟩ := e
    obtain ⟨q, hq, hq1⟩ := h
    by_cases hs : s3 = s2
    · rw [pushSubBG, if_pos hs]
      rcases List.mem_cons.mp hq with rfl | ht
      · exact ⟨(s3, ⟨bk.parent, bk.subtasks ++ [c]⟩), List.mem_cons_self _ _, hq1⟩
      · exact ⟨q, List.mem_cons_of_mem _ ht, hq1⟩
    · rw [pushSubBG, if_neg hs]
      rcases List.mem_cons.mp hq with rfl | ht
      · exact ⟨(s3, bk), List.mem_cons_self _ _, hq1⟩
      · obtain ⟨q2, h1, h2⟩ := ih ⟨q, ht, hq1⟩
        exact ⟨q2, List.mem_cons_of_mem _ h1, h2⟩

theorem pushSub_hasKey_mono (g : Grouped) (b b2 : String) (s : Int) (s2 : Int) (c : ChartItem)
    (h : HasKey g b s) : HasKey (pushSub g b2 s2 c) b s := by
  induction g with
  | nil =>
    obtain ⟨p, hp, _⟩ := h
    cases hp
  | cons e rest ih =>
    obtain ⟨b3, bg⟩ := e
    obtain ⟨p, hp, hp1, hp2⟩ := h
    by_cases hb : b3 = b2
    · rw [pushSub, if_pos hb]
      rcases List.mem_cons.mp hp with rfl | ht
      · exact ⟨(b3, pushSubBG bg s2 c), List.mem_cons_self _ _, hp1,
          pushSubBG_hasKey_mono bg s s2 c hp2⟩
      · exact ⟨p, List.mem_cons_of_mem _ ht, hp1, hp2⟩
    · rw [pushSub, if_neg hb]
      rcases List.mem_cons.mp hp with rfl | ht
      · exact ⟨(b3, bg), List.mem_cons_self _ _, hp1, hp2⟩
      · obtain ⟨p2, h1, h2, h3⟩ := ih ⟨p, ht, hp1, hp2⟩
        exact ⟨p2, List.mem_cons_of_mem _ h1, h2, h3⟩

theorem subtaskStep_hasKey_mono (l : List ChartItem) (g : Grouped) (i : Nat) (c : ChartItem)
    (b : String) (s : Int) (h : HasKey g b s) : HasKey (subtaskStep l g i c) b s := by
  rw [subtaskStep]
  cases c.slot with
  | some s2 => exact h
  | none =>
    cases findPrevParent ((l.take i).reverse) (baseOf c) with
    | none => exact h
    | some sp => exact pushSub_hasKey_mono g b (baseOf c) s sp.1 c h

theorem subtaskStep_basesNodup (l : List ChartItem) (g : Grouped) (i : Nat) (c : ChartItem)
    (hg : BasesNodup g) : BasesNodup (subtaskStep l g i c) := by
  rw [subtaskStep]
  cases c.slot with
  | some s2 => exact hg
  | none =>
    cases findPrevParent ((l.take i).reverse) (baseOf c) with
    | none => exact hg
    | some sp => exact pushSub_basesNodup g (baseOf c) sp.1 c hg


theorem pushSubBG_memSub_self (bg : BaseGroup) (s : Int) (c : ChartItem)
    (h : ∃ q ∈ bg, (q : Int × Bucket).1 = s) :
    ∃ q ∈ pushSubBG bg s c, (q : Int × Bucket).1 = s ∧ c ∈ q.2.subtasks := by
  induction bg with
  | nil =>
    obtain ⟨q, hq, _⟩ := h
    cases hq
  | cons e rest ih =>
    obtain ⟨s2, bk⟩ := e
    by_cases hs : s2 = s
    · rw [pushSubBG, if_pos hs]
      exact ⟨(s2, ⟨bk.parent, bk.subtasks ++ [c]⟩), List.mem_cons_self _ _, hs,
        List.mem_append_right _ (List.mem_singleton.mpr rfl)⟩
    · rw [pushSubBG, if_neg hs]
      obtain ⟨q, hq, hq1⟩ := h
      rcases List.mem_cons.mp hq with rfl | ht
      · exact absurd hq1 hs
      · obtain ⟨q2, h1, h2, h3⟩ := ih ⟨q, ht, hq1⟩
        exact ⟨q2, List.mem_cons_of_mem _ h1, h2, h3⟩

theorem pushSub_memSub_self (g : Grouped) (b : String) (s : Int) (c : ChartItem)
    (hn : BasesNodup g) (h : HasKey g b s) : MemSub (pushSub g b s c) b s c := by
  induction g with
  | nil =>
    obtain ⟨p, hp, _⟩ := h
    cases hp
  | cons e rest ih =>
    obtain ⟨b2, bg⟩ := e
    obtain ⟨p, hp, hp1, hp2⟩ := h
    have hn2 : BasesNodup rest := (List.nodup_cons.mp hn).2
    by_cases hb : b2 = b
    · rw [pushSub, if_pos hb]
      have hbg : ∃ q ∈ bg, (q : Int × Bucket).1 = s := by
        rcases List.mem_cons.mp hp with rfl | ht
        · exact hp2
        · exfalso
          have : b ∈ rest.map (fun p => p.1) := hp1 ▸ List.mem_map.mpr ⟨p, ht, rfl⟩
          exact (List.nodup_cons.mp hn).1 (hb ▸ this)
      obtain ⟨q, h1, h2, h3⟩ := pushSubBG_memSub_self bg s c hbg
      exact ⟨(b2, pushSubBG bg s c), List.mem_cons_self _ _, hb, q, h1, h2, h3⟩
    · rw [pushSub, if_neg hb]
      have hpt : p ∈ rest := by
        rcases List.mem_cons.mp hp with rfl | ht
        · exact absurd hp1 hb
        · exact ht
      obtain ⟨p2, h1, h2, h3⟩ := ih hn2 ⟨p, hpt, hp1, hp2⟩
      exact ⟨p2, List.mem_cons_of_mem _ h1, h2, h3⟩

theorem pushSubBG_memSub_mono (bg : BaseGroup) (s s2 : Int) (c c2 : ChartItem)
    (h : ∃ q ∈ bg, (q : Int × Bucket).1 = s ∧ c ∈ q.2.subtasks) :
    ∃ q ∈ pushSubBG bg s2 c2, (q : Int × Bucket).1 = s ∧ c ∈ q.2.subtasks := by
  induction bg with
  | nil =>
    obtain ⟨q, hq, _⟩ := h
    cases hq
  | cons e rest ih =>
    obtain ⟨s3, bk⟩ := e
    obtain ⟨q, hq, hq1, hq2⟩ := h
    by_cases hs : s3 = s2
    · rw [pushSubBG, if_pos hs]
      rcases List.mem_cons.mp hq with rfl | ht
      · exact ⟨(s3, ⟨bk.parent, bk.subtasks ++ [c2]⟩), List.mem_cons_self _ _, hq1,
          List.mem_append_left _ hq2⟩
      · exact ⟨q, List.mem_cons_of_mem _ ht, hq1, hq2⟩
    · rw [pushSubBG, if_neg hs]
      rcases List.mem_cons.mp hq with rfl | ht
      · exact ⟨(s3, bk), List.mem_cons_self _ _, hq1, hq2⟩
      · obtain ⟨q2, h1, h2, h3⟩ := ih ⟨q, ht, hq1, hq2⟩
        exact ⟨q2, List.mem_cons_of_mem _ h1, h2, h3⟩

theorem pushSub_memSub_mono (g : Grouped) (b b2 : String) (s s2 : Int) (c c2 : ChartItem)
    (h : MemSub g b s c) : MemSub (pushSub g b2 s2 c2) b s c := by
  induction g with
  | nil =>
    obtain ⟨p, hp, _⟩ := h
    cases hp
  | cons e rest ih =>
    obtain ⟨b3, bg⟩ := e
    obtain ⟨p, hp, hp1, hp2⟩ := h
    by_cases hb : b3 = b2
    · rw [pushSub, if_pos hb]
      rcases List.mem_cons.mp hp with rfl | ht
      · obtain ⟨q, h1, h2, h3⟩ := pushSubBG_memSub_mono bg s s2 c c2 hp2
        exact ⟨(b3, pushSubBG bg s2 c2), List.mem_cons_self _ _, hp1, q, h1, h2, h3⟩
      · exact ⟨p, List.mem_cons_of_mem _ ht, hp1, hp2⟩
    · rw [pushSub, if_neg hb]
      rcases List.mem_cons.mp hp with rfl | ht
      · exact ⟨(b3, bg), List.mem_cons_self _ _, hp1, hp2⟩
      · obtain ⟨p2, h1, h2, h3⟩ := ih ⟨p, ht, hp1, hp2⟩
        exact ⟨p2, List.mem_cons_of_mem _ h1, h2, h3⟩

theorem subtaskStep_memSub_mono (l : List ChartItem) (g : Grouped) (i : Nat) (c2 : ChartItem)
    (b : String) (s : Int) (c : ChartItem) (h : MemSub g b s c) :
    MemSub (subtaskStep l g i c2) b s c := by
  rw [subtaskStep]
  cases c2.slot with
  | some s2 => exact h
  | none =>
    cases findPrevParent ((l.take i).reverse) (baseOf c2) with
    | none => exact h
    | some sp => exact pushSub_memSub_mono g b (baseOf c2) s sp.1 c c2 h

theorem subtasksGo_memSub_mono (l : List ChartItem) :
    ∀ (rest : List ChartItem) (g : Grouped) (i : Nat) (b : String) (s : Int) (c : ChartItem),
      MemSub g b s c → MemSub (subtasksGo l g i rest) b s c := by
  intro rest
  induction rest with
  | nil => exact fun g i b s c h => h
  | cons a rest2 ih =>
    intro g i b s c h
    rw [subtasksGo]
    exact ih (subtaskStep l g i a) (i + 1) b s c (subtaskStep_memSub_mono l g i a b s c h)

theorem findPrevParent_spec (rev : List ChartItem) (b : String) (s : Int) (p : ChartItem)
    (h : findPrevParent rev b = some (s, p)) :
    p ∈ rev ∧ p.slot = some s ∧ baseOf p = b := by
  induction rev with
  | nil => cases h
  | cons a rest ih =>
    rw [findPrevParent] at h
    cases hsl : a.slot with
    | some s2 =>
      simp only [hsl] at h
      by_cases hb : baseOf a = b
      · rw [if_pos hb] at h
        injection h with h2
        injection h2 with h3 h4
        subst h4
        subst h3
        exact ⟨List.mem_cons_self _ _, hsl, hb⟩
      · rw [if_neg hb] at h
        obtain ⟨h1, h2, h3⟩ := ih h
        exact ⟨List.mem_cons_of_mem _ h1, h2, h3⟩
    | none =>
      simp only [hsl] at h
      obtain ⟨h1, h2, h3⟩ := ih h
      exact ⟨List.mem_cons_of_mem _ h1, h2, h3⟩

theorem subtasksGo_adds (l : List ChartItem) :
    ∀ (rest : List ChartItem) (k i : Nat) (g : Grouped) (c : ChartItem) (s : Int) (p : ChartItem),
      rest.get? k = some c → c.slot = none →
      findPrevParent ((l.take (i + k)).reverse) (baseOf c) = some (s, p) →
      BasesNodup g → HasKey g (baseOf c) s →
      MemSub (subtasksGo l g i rest) (baseOf c) s c := by
  intro rest
  induction rest with
  | nil =>
    intro k i g c s p hget
    cases hget
  | cons a rest2 ih =>
    intro k i g c s p hget hslot hfind hn hk
    cases k with
    | zero =>
      have hac : a = c := by
        injection hget
      subst hac
      rw [subtasksGo]
      have hstep : subtaskStep l g i a = pushSub g (baseOf a) s a := by
        rw [subtaskStep, hslot]
        have : i + 0 = i := rfl
        rw [this] at hfind
        rw [hfind]
      rw [hstep]
      exact subtasksGo_memSub_mono l rest2 (pushSub g (baseOf a) s a) (i + 1) (baseOf a) s a
        (pushSub_memSub_self g (baseOf a) s a hn hk)
    | succ k2 =>
      rw [subtasksGo]
      have hget2 : rest2.get? k2 = some c := hget
      have hfind2 : findPrevParent ((l.take ((i + 1) + k2)).reverse) (baseOf c) = some (s, p) := by
        have : (i + 1) + k2 = i + (k2 + 1) := by omega
        rw [this]
        exact hfind
      exact ih k2 (i + 1) (subtaskStep l g i a) c s p hget2 hslot hfind2
        (subtaskStep_basesNodup l g i a hn)
        (subtaskStep_hasKey_mono l g i a (baseOf c) s hk)


theorem groupedP1_memSub (l : List ChartItem) (i : Nat) (c : ChartItem) (s : Int)
    (p : ChartItem) (hget : l.get? i = some c) (hslot : c.slot = none)
    (hfind : findPrevParent ((l.take i).reverse) (baseOf c) = some (s, p)) :
    MemSub (groupedP1 l) (baseOf c) s c := by
  have hp := findPrevParent_spec ((l.take i).reverse) (baseOf c) s p hfind
  have hpl : p ∈ l := (List.take_sublist i l).subset (List.mem_reverse.mp hp.1)
  have hk : HasKey (parentsPass l) (baseOf c) s := by
    have h2 := parentsPass_hasKey l [] p s hpl hp.2.1
    rw [hp.2.2] at h2
    exact h2
  have hn : BasesNodup (parentsPass l) :=
    parentsPass_basesNodup l [] List.nodup_nil
  rw [groupedP1]
  have hfind0 : findPrevParent ((l.take (0 + i)).reverse) (baseOf c) = some (s, p) := by
    rw [Nat.zero_add]
    exact hfind
  exact subtasksGo_adds l l i 0 (parentsPass l) c s p hget hslot hfind0 hn hk

theorem memSub_sorted (l : List ChartItem) (b : String) (s : Int) (c : ChartItem)
    (h : MemSub (groupedP1 l) b s c) :
    ∃ bg bk, (b, bg) ∈ sortedGroupedP1 l ∧ (s, bk) ∈ bg ∧ c ∈ bk.subtasks := by
  obtain ⟨p, hp, hp1, q, hq, hq1, hq2⟩ := h
  refine ⟨sortBySlot p.2, q.2, ?_, ?_, hq2⟩
  · rw [sortedGroupedP1]
    have hmm : (p.1, sortBySlot p.2) ∈ (groupedP1 l).map (fun p => (p.1, sortBySlot p.2)) :=
      List.mem_map.mpr ⟨p, hp, rfl⟩
    rw [hp1] at hmm
    exact hmm
  · have hqm : q ∈ sortBySlot p.2 := by
      rw [sortBySlot]
      exact (List.perm_insertionSort _ p.2).mem_iff.mpr hq
    rw [← hq1]
    exact hqm

theorem sortedGroupedP1_parents (l : List ChartItem) :
    ∀ p ∈ sortedGroupedP1 l, ∀ q ∈ p.2, (q.2 : Bucket).parent.slot = some q.1 := by
  intro p hp q hq
  rw [sortedGroupedP1] at hp
  obtain ⟨p0, hp0, he⟩ := List.mem_map.mp hp
  have hok := groupedP1_ok l p0 hp0
  subst he
  have hq0 : q ∈ p0.2 := by
    have hperm := (List.perm_insertionSort
      (fun x y : Int × Bucket => x.1 ≤ y.1) p0.2).mem_iff (a := q)
    rw [sortBySlot] at hq
    exact hperm.mp hq
  exact hok q hq0

theorem addPoint_sum (acc : List ChartDataPoint) (sd : ChartDataPoint) :
    ((addPoint acc sd).map (fun d => d.value)).sum
      = (acc.map (fun d => d.value)).sum + sd.value := by
  induction acc with
  | nil => simp [addPoint]
  | cons d rest ih =>
    by_cases hl : d.label = sd.label
    · rw [addPoint, if_pos hl]
      simp only [List.map_cons, List.sum_cons]
      omega
    · rw [addPoint, if_neg hl]
      simp only [List.map_cons, List.sum_cons, ih]
      omega

theorem addPoint_total (acc : List ChartDataPoint) (sd : ChartDataPoint) :
    chartTotal (addPoint acc sd) = chartTotal acc + sd.value := by
  rw [chartTotal_eq_sum, chartTotal_eq_sum, addPoint_sum]

theorem addPoint_labels (acc : List ChartDataPoint) (sd : ChartDataPoint) :
    (addPoint acc sd).map (fun d => d.label)
      = if acc.any (fun d => d.label == sd.label) then acc.map (fun d => d.label)
        else acc.map (fun d => d.label) ++ [sd.label] := by
  induction acc with
  | nil => simp [addPoint]
  | cons d rest ih =>
    by_cases hl : d.label = sd.label
    · rw [addPoint, if_pos hl]
      have ha : ((d :: rest).any (fun d => d.label == sd.label)) = true := by
        simp [List.any_cons, hl]
      rw [if_pos ha]
      simp
    · rw [addPoint, if_neg hl]
      have hbeq : (d.label == sd.label) = false := beq_eq_false_iff_ne.mpr hl
      rw [List.map_cons, ih, List.any_cons, hbeq]
      simp only [Bool.false_or]
      by_cases ha : rest.any (fun d => d.label == sd.label) = true
      · rw [if_pos ha, if_pos ha]
        simp
      · rw [if_neg ha, if_neg ha]
        simp

/-- Claim C1: in the `part_001` grouping pipeline, every rendered bucket's
parent is a sloted chart keyed by its own slot — a null-slot item is never
rendered as an independent chart; every null-slot item whose nearest
preceding same-base sloted item exists (the backwards scan returns that
item with its slot) ends up in that bucket's subtask list, whose data
points `combinedData` folds into the parent's data before aggregation,
merging by label and summing values (the `addPoint` conjunct); and the
scenario `["Proj::A" slot 1, "Proj::Sub" slot null]` renders exactly one
chart "Proj::A" with the summed data. -/
theorem null_slot_folded :
    (∀ (l : List ChartItem), ∀ p ∈ sortedGroupedP1 l, ∀ q ∈ p.2,
      (q.2 : Bucket).parent.slot = some q.1) ∧
    (∀ (l : List ChartItem) (i : Nat) (c : ChartItem) (s : Int) (p : ChartItem),
      l.get? i = some c → c.slot = none →
      findPrevParent ((l.take i).reverse) (baseOf c) = some (s, p) →
      ∃ bg bk, (baseOf c, bg) ∈ sortedGroupedP1 l ∧ (s, bk) ∈ bg ∧ c ∈ bk.subtasks) ∧
    (∀ (acc : List ChartDataPoint) (sd : ChartDataPoint),
      chartTotal (addPoint acc sd) = chartTotal acc + sd.value ∧
      (addPoint acc sd).map (fun d => d.label)
        = (if acc.any (fun d => d.label == sd.label) then acc.map (fun d => d.label)
           else acc.map (fun d => d.label) ++ [sd.label])) ∧
    renderP1 [projA, projSub] = [("Proj", [(1, [⟨"Done", 5⟩, ⟨"Not started", 1⟩])])] := by
  refine ⟨sortedGroupedP1_parents, ?_,
    fun acc sd => ⟨addPoint_total acc sd, addPoint_labels acc sd⟩, by decide⟩
  intro l i c s p hget hslot hfind
  exact memSub_sorted l (baseOf c) s c (groupedP1_memSub l i c s p hget hslot hfind)

/-- Claim C1 witness: the fold conclusion at the scenario list, where the
null-slot "Proj::Sub" at index 1 has "Proj::A" (slot 1) as its nearest
preceding sloted item of the same base. -/
theorem null_slot_folded_witness :
    ([projA, projSub].get? 1 = some projSub) ∧ projSub.slot = none ∧
    findPrevParent (([projA, projSub].take 1).reverse) (baseOf projSub) = some (1, projA) ∧
    ∃ bg bk, (baseOf projSub, bg) ∈ sortedGroupedP1 [projA, projSub] ∧
      ((1 : Int), bk) ∈ bg ∧ projSub ∈ bk.subtasks :=
  ⟨rfl, rfl, by decide,
   null_slot_folded.2.1 [projA, projSub] 1 projSub 1 projA rfl rfl (by decide)⟩


end NotionCharts
